import Mathlib

/-!
Verification development for the VID2MID MIDI-mapping core
(src/VID2MID/core/midi_mapper.py and src/VID2MID/core/config_manager.py).

Embedding conventions:
* Python floats (millisecond timestamps, analysis values, thresholds) are
  modelled by exact rationals; the only irrational operation in the source,
  math.sqrt in the background track, is modelled by Real.sqrt.
* Python int(x) truncates toward zero; this is pyInt below.
* mido messages are modelled by the Msg inductive.  A mido Message built
  without an explicit channel argument has channel 0 and a note_off built
  without an explicit velocity has velocity 64 (mido defaults); the
  embedding spells those defaults out at each construction site.
* Analysis samples are Python dicts; each track builder reads a fixed set
  of keys, so a sample is a structure of Option-valued fields.  A direct
  subscript access event[k] raises KeyError when the key is missing and is
  modelled in the Except monad; event.get(k, 0) is Option.getD 0.
-/

/-- Truncation toward zero: the behaviour of Python's int() applied to the
exact value of a float expression.  Agrees with Int.floor on nonnegative
arguments and with Int.ceil on negative ones. -/
def pyInt (q : ℚ) : ℤ := if 0 ≤ q then ⌊q⌋ else ⌈q⌉

/-- Python's float modulo a % b for b > 0: the representative of a in
[0, b) (used for angle % 360 in _direction_to_note). -/
def pyMod (a b : ℚ) : ℚ := a - b * ⌊a / b⌋

/-- Errors the mapper code can raise while building a track.  keyErrorTime
models the KeyError raised by a subscript access event[&quot;time&quot;] on a sample
missing that key; mathDomain models the ValueError raised by math.sqrt on a
negative argument. -/
inductive PyErr where
  | keyErrorTime : PyErr
  | mathDomain : PyErr
  | attributeError : PyErr
deriving DecidableEq

/-- Reads the mandatory time field of a sample: a Python subscript access,
raising KeyError when the field is absent. -/
def getTime : Option ℚ → Except PyErr ℚ
  | some t => .ok t
  | none => .error .keyErrorTime

/-- MIDIMapper.ms_to_ticks: int((milliseconds * self.ticks_per_beat) /
(self.tempo / 1000)) with ticks_per_beat = 480 and tempo = 500000. -/
def ms_to_ticks (milliseconds : ℚ) : ℤ :=
  pyInt (milliseconds * 480 / (500000 / 1000))

/-- A mido message as appended to a MidiTrack by the mapper.  The time
field is the running delta-time in ticks. -/
inductive Msg where
  | program_change (program : ℤ) (channel : ℤ) (time : ℤ)
  | control_change (control : ℤ) (value : ℤ) (channel : ℤ) (time : ℤ)
  | note_on (note : ℤ) (velocity : ℤ) (channel : ℤ) (time : ℤ)
  | note_off (note : ℤ) (velocity : ℤ) (channel : ℤ) (time : ℤ)
  | set_tempo (tempo : ℤ) (time : ℤ)
deriving DecidableEq

/-- The .time attribute of a mido message (read by _add_note_cluster via
track[-1].time). -/
def Msg.time : Msg → ℤ
  | .program_change _ _ t => t
  | .control_change _ _ _ t => t
  | .note_on _ _ _ t => t
  | .note_off _ _ _ t => t
  | .set_tempo _ t => t

/-- Tests whether a message is a note_on. -/
def Msg.isNoteOn : Msg → Bool
  | .note_on _ _ _ _ => true
  | _ => false

/-- Tests whether a message is a note_off. -/
def Msg.isNoteOff : Msg → Bool
  | .note_off _ _ _ _ => true
  | _ => false

/-- The note of a note_on or note_off message (0 for other kinds). -/
def Msg.note : Msg → ℤ
  | .note_on n _ _ _ => n
  | .note_off n _ _ _ => n
  | _ => 0

/-- The velocity of a note_on or note_off message (0 for other kinds). -/
def Msg.velocity : Msg → ℤ
  | .note_on _ v _ _ => v
  | .note_off _ v _ _ => v
  | _ => 0

/-- A sample of the background stream: a dict with keys time, hue_shift,
value_shift, any of which may be absent. -/
structure BgSample where
  time : Option ℚ
  hue_shift : Option ℚ
  value_shift : Option ℚ
deriving DecidableEq

/-- A sample of the medium (motion) stream: a dict with keys time,
intensity, direction. -/
structure MedSample where
  time : Option ℚ
  intensity : Option ℚ
  direction : Option ℚ
deriving DecidableEq

/-- A detail event: a dict with keys time, hue, size.  Equality of two
samples models Python dict equality (used by the `event == main_event`
test in _add_note_cluster). -/
structure DetSample where
  time : Option ℚ
  hue : Option ℚ
  size : Option ℚ
deriving DecidableEq

/-- The background-track parameters read from the merged config by
_create_background_track via config.get. -/
structure BackgroundConfig where
  program : ℤ
  base_note : ℤ
  decay : ℚ

/-- The defaults used by _create_background_track's config.get calls. -/
def defaultBackgroundConfig : BackgroundConfig := ⟨52, 36, 15000⟩

/-- The medium-track parameters read by _create_medium_track. -/
structure MediumConfig where
  program : ℤ
  scale : List ℤ
  base_octave : ℤ
  decay : ℚ
  intensity_threshold : ℚ

/-- The defaults used by _create_medium_track's config.get calls. -/
def defaultMediumConfig : MediumConfig := ⟨74, [0, 2, 4, 7, 9], 4, 500, 1⟩

/-- The details-track parameters read by _create_details_track and
_add_note_cluster (note_range is the two-element list [84, 96]). -/
structure DetailsConfig where
  program : ℤ
  note_range : ℤ × ℤ
  group_threshold : ℚ

/-- The defaults used by _create_details_track's config.get calls. -/
def defaultDetailsConfig : DetailsConfig := ⟨127, (84, 96), 50⟩

/-- MIDIMapper._direction_to_note: angle = angle % 360; note_index =
int((angle / 360) * len(scale)); scale[note_index % len(scale)] +
octave * 12.  (For an empty scale the Python code would raise
ZeroDivisionError; every configuration exercised here has a nonempty
scale, and theorems about the pitch carry that hypothesis.) -/
def direction_to_note (angle : ℚ) (scale : List ℤ) (octave : ℤ) : ℤ :=
  let a := pyMod angle 360
  let note_index := pyInt (a / 360 * scale.length)
  scale.getD (note_index.emod scale.length).toNat 0 + octave * 12

/-- MIDIMapper._hue_to_note: int(note_range[0] + (hue / 180) *
(note_range[1] - note_range[0])). -/
def hue_to_note (hue : ℚ) (note_range : ℤ × ℤ) : ℤ :=
  pyInt (note_range.1 + hue / 180 * (note_range.2 - note_range.1))

/-- The background-track note velocity int(math.sqrt(value_shift) * 127):
math.sqrt never returns a negative float, so int() here is Int.floor. -/
noncomputable def bg_velocity (value_shift : ℚ) : ℤ :=
  ⌊Real.sqrt (value_shift : ℝ) * 127⌋

/-- The per-sample loop of MIDIMapper._create_background_track, carrying
the mutable last_time and last_hue of the source. -/
noncomputable def bgLoop (cfg : BackgroundConfig) :
    List BgSample → ℚ → ℚ → Except PyErr (List Msg)
  | [], _, _ => .ok []
  | event :: rest, last_time, last_hue => do
    let t ← getTime event.time
    let delta_ticks := ms_to_ticks (t - last_time)
    let hue_change := |event.hue_shift.getD 0 - last_hue|
    let mod_value := min (pyInt (hue_change * 127)) 127
    let vs := event.value_shift.getD 0
    if vs < 0 then
      .error .mathDomain
    else do
      let velocity := bg_velocity vs
      let msgs ← bgLoop cfg rest t (event.hue_shift.getD 0)
      .ok (Msg.control_change 1 mod_value 0 delta_ticks ::
           Msg.note_on cfg.base_note velocity 0 0 ::
           Msg.note_off cfg.base_note 64 0 (ms_to_ticks cfg.decay) :: msgs)

/-- MIDIMapper._create_background_track: the initial program_change on
channel 0 followed by the per-sample loop. -/
noncomputable def create_background_track (cfg : BackgroundConfig)
    (data : List BgSample) : Except PyErr (List Msg) := do
  .ok (Msg.program_change cfg.program 0 0 :: (← bgLoop cfg data 0 0))

/-- The per-sample loop of MIDIMapper._create_medium_track, carrying the
mutable last_time (updated only for kept samples). -/
def medLoop (cfg : MediumConfig) :
    List MedSample → ℚ → Except PyErr (List Msg)
  | [], _ => .ok []
  | event :: rest, last_time =>
    if event.intensity.getD 0 < cfg.intensity_threshold then
      medLoop cfg rest last_time
    else do
      let t ← getTime event.time
      let delta_ticks := ms_to_ticks (t - last_time)
      let note := direction_to_note (event.direction.getD 0) cfg.scale cfg.base_octave
      let velocity := pyInt (min (event.intensity.getD 0 * 127) 127)
      let msgs ← medLoop cfg rest t
      .ok (Msg.note_on note velocity 0 delta_ticks ::
           Msg.note_off note 64 0 (ms_to_ticks cfg.decay) :: msgs)

/-- MIDIMapper._create_medium_track: the initial program_change on
channel 1 followed by the per-sample loop.  Note that the note_on and
note_off constructions in the source omit the channel argument, so mido
gives them channel 0. -/
def create_medium_track (cfg : MediumConfig) (data : List MedSample) :
    Except PyErr (List Msg) := do
  .ok (Msg.program_change cfg.program 1 0 :: (← medLoop cfg data 0))

/-- The main_event = max(events, key=lambda x: x.get(&quot;size&quot;, 0)) selection
of _add_note_cluster: Python max keeps the current maximum and replaces it
only on a strictly greater key, so ties go to the earliest element. -/
def mainEventOf (e0 : DetSample) (rest : List DetSample) : DetSample :=
  rest.foldl (fun acc x => if acc.size.getD 0 < x.size.getD 0 then x else acc) e0

/-- The secondary-note loop of _add_note_cluster: every event of the
cluster that compares equal (as a dict) to the main event is skipped, the
others get a velocity-90 note_on at delta 0 and a note_off after 30 ms. -/
def secondaryNotes (cfg : DetailsConfig) (main_event : DetSample) :
    List DetSample → List Msg
  | [] => []
  | event :: rest =>
    if event = main_event then secondaryNotes cfg main_event rest
    else
      Msg.note_on (hue_to_note (event.hue.getD 0) cfg.note_range) 90 0 0 ::
      Msg.note_off (hue_to_note (event.hue.getD 0) cfg.note_range) 64 0 (ms_to_ticks 30) ::
      secondaryNotes cfg main_event rest

/-- MIDIMapper._add_note_cluster.  The delta of the main note is
ms_to_ticks applied to (main_event[&quot;time&quot;] - track[-1].time) if the track
is nonempty and to 0 otherwise — the conditional expression in the source
binds this way, and track[-1].time is the (tick-valued) delta-time field
of the last message already on the track, not a millisecond clock. -/
def add_note_cluster (cfg : DetailsConfig) (track : List Msg)
    (events : List DetSample) : Except PyErr (List Msg) :=
  match events with
  | [] => .ok track
  | e0 :: rest => do
    let main_event := mainEventOf e0 rest
    let main_note := hue_to_note (main_event.hue.getD 0) cfg.note_range
    let delta_ms ← match track.getLast? with
      | some m => do
        let t ← getTime main_event.time
        .ok (t - (m.time : ℚ))
      | none => .ok (0 : ℚ)
    .ok (track ++
      Msg.note_on main_note 127 0 (ms_to_ticks delta_ms) ::
      Msg.note_off main_note 64 0 (ms_to_ticks 50) ::
      secondaryNotes cfg main_event (e0 :: rest))

/-- The grouping loop of MIDIMapper._create_details_track, carrying the
track built so far and the current_group accumulator.  The last_time
variable of the source is written but never read and is omitted; its
assignment last_time = event[&quot;time&quot;] still raises KeyError on a sample
with no time field, which is what the getTime reads model. -/
def detLoop (cfg : DetailsConfig) :
    List DetSample → List Msg → List DetSample → Except PyErr (List Msg)
  | [], track, current_group => add_note_cluster cfg track current_group
  | event :: rest, track, current_group =>
    match current_group.getLast? with
    | some g => do
      let te ← getTime event.time
      let tg ← getTime g.time
      if cfg.group_threshold < te - tg then do
        let track2 ← add_note_cluster cfg track current_group
        detLoop cfg rest track2 [event]
      else
        detLoop cfg rest track (current_group ++ [event])
    | none => do
      let _t ← getTime event.time
      detLoop cfg rest track (current_group ++ [event])

/-- MIDIMapper._create_details_track: program_change on channel 2, then
the grouping loop with an empty current_group. -/
def create_details_track (cfg : DetailsConfig) (data : List DetSample) :
    Except PyErr (List Msg) :=
  detLoop cfg data [Msg.program_change cfg.program 2 0] []

/-- MIDIMapper.create_multitrack_midi: the tempo meta track followed by
the background, medium and details tracks, in that order. -/
noncomputable def create_multitrack_midi (bcfg : BackgroundConfig)
    (mcfg : MediumConfig) (dcfg : DetailsConfig)
    (background : List BgSample) (medium : List MedSample)
    (details : List DetSample) : Except PyErr (List (List Msg)) := do
  .ok [[Msg.set_tempo 500000 0],
       ← create_background_track bcfg background,
       ← create_medium_track mcfg medium,
       ← create_details_track dcfg details]

/-- The samples of a medium stream that survive the intensity filter of
_create_medium_track: those with intensity (default 0) not strictly below
the configured threshold. -/
def keptMed (cfg : MediumConfig) (data : List MedSample) : List MedSample :=
  data.filter (fun s => cfg.intensity_threshold ≤ s.intensity.getD 0)

/-- The delta-tick sequence the spec prescribes for a sequence of kept
sample times: each time minus its predecessor (the first one measured
against the given start), converted to ticks. -/
def deltaTicksOf : ℚ → List ℚ → List ℤ
  | _, [] => []
  | t0, t :: ts => ms_to_ticks (t - t0) :: deltaTicksOf t ts

/-- Reference form of the medium track body: one note_on/note_off pair per
(kept) sample, deltas measured between consecutive samples of the list. -/
def medEmit (cfg : MediumConfig) : ℚ → List MedSample → List Msg
  | _, [] => []
  | last_time, s :: rest =>
    Msg.note_on (direction_to_note (s.direction.getD 0) cfg.scale cfg.base_octave)
      (pyInt (min (s.intensity.getD 0 * 127) 127)) 0
      (ms_to_ticks (s.time.getD 0 - last_time)) ::
    Msg.note_off (direction_to_note (s.direction.getD 0) cfg.scale cfg.base_octave)
      64 0 (ms_to_ticks cfg.decay) ::
    medEmit cfg (s.time.getD 0) rest

/-- Reference form of the background track body, with the control-change
value and note velocity written as the floor-based expressions the code
actually computes (int() truncation of nonnegative floats). -/
noncomputable def bgSpecEmit (cfg : BackgroundConfig) :
    ℚ → ℚ → List BgSample → List Msg
  | _, _, [] => []
  | last_time, last_hue, s :: rest =>
    Msg.control_change 1 (min 127 ⌊|s.hue_shift.getD 0 - last_hue| * 127⌋) 0
      (ms_to_ticks (s.time.getD 0 - last_time)) ::
    Msg.note_on cfg.base_note ⌊Real.sqrt ((s.value_shift.getD 0 : ℚ) : ℝ) * 127⌋ 0 0 ::
    Msg.note_off cfg.base_note 64 0 (ms_to_ticks cfg.decay) ::
    bgSpecEmit cfg (s.time.getD 0) (s.hue_shift.getD 0) rest

/-- Replaces the optional (defaultable) fields of a background sample by
their explicit defaults, keeping the mandatory time field as it is. -/
def fillBg (s : BgSample) : BgSample :=
  ⟨s.time, some (s.hue_shift.getD 0), some (s.value_shift.getD 0)⟩

/-- Replaces the optional fields of a medium sample by their defaults. -/
def fillMed (s : MedSample) : MedSample :=
  ⟨s.time, some (s.intensity.getD 0), some (s.direction.getD 0)⟩

/-- Replaces the optional fields of a detail event by their defaults. -/
def fillDet (s : DetSample) : DetSample :=
  ⟨s.time, some (s.hue.getD 0), some (s.size.getD 0)⟩

/-- The clustering rule of _create_details_track in isolation: accumulate
consecutive events, flushing the current group whenever the incoming
event's time exceeds the last accumulated event's time by strictly more
than the threshold, and flush the remainder at the end. -/
def clLoop (threshold : ℚ) : List DetSample → List DetSample → List (List DetSample)
  | [], current_group => if current_group = [] then [] else [current_group]
  | event :: rest, current_group =>
    match current_group.getLast? with
    | some g =>
      if threshold < event.time.getD 0 - g.time.getD 0 then
        current_group :: clLoop threshold rest [event]
      else
        clLoop threshold rest (current_group ++ [event])
    | none => clLoop threshold rest (current_group ++ [event])

/-- The cluster partition of a detail stream under a group threshold. -/
def clustersOf (threshold : ℚ) (data : List DetSample) : List (List DetSample) :=
  clLoop threshold data []

/-- The main event as the spec words it: the first event of the cluster
whose size is greater than or equal to every size in the cluster (largest
area, ties broken by first occurrence). -/
def specMainEvent (l : List DetSample) : Option DetSample :=
  l.find? (fun e => l.all (fun y => y.size.getD 0 ≤ e.size.getD 0))

/-- The per-message range property of claim C10: note_on pitch and
velocity in [0, 127] and control_change value in [0, 127]. -/
def msgInRange : Msg → Prop
  | .note_on note velocity _ _ =>
    0 ≤ note ∧ note ≤ 127 ∧ 0 ≤ velocity ∧ velocity ≤ 127
  | .control_change _ value _ _ => 0 ≤ value ∧ value ≤ 127
  | _ => True

/-!
Model of the nested configuration dictionaries merged by
MIDIMapper._merge_configs.  A Python value at a key is either a scalar
leaf (program numbers, decay times, scale lists — the merge never looks
inside a non-dict value, so leaves are collapsed to integers) or a nested
dict, modelled as an association list of string keys in insertion order.
-/

mutual
/-- A configuration value: a non-dict leaf or a nested dict. -/
inductive CVal where
  | leaf : ℤ → CVal
  | node : Entries → CVal

/-- The entry list of a configuration dict, in insertion order. -/
inductive Entries where
  | nil : Entries
  | cons : String → CVal → Entries → Entries
end

/-- Key lookup in a dict (Python d[k] / k in d). -/
def getKey : Entries → String → Option CVal
  | .nil, _ => none
  | .cons k v rest, key => if k = key then some v else getKey rest key

/-- Key assignment in a dict (Python d[k] = v): replaces the value in
place when the key is present, appends otherwise. -/
def setKey : Entries → String → CVal → Entries
  | .nil, key, v => .cons key v .nil
  | .cons k w rest, key, v =>
    if k = key then .cons k v rest else .cons k w (setKey rest key v)

/-- Tests whether a dict contains a key. -/
def hasKey : Entries → String → Bool
  | .nil, _ => false
  | .cons k _ rest, key => k = key || hasKey rest key

mutual
/-- MIDIMapper._merge_configs(default, user).  When both arguments are
dicts it copies the default and folds the user's items over it; when the
default is a non-dict the initial default.copy() raises AttributeError,
and when the user is a non-dict the iteration user.items() raises
AttributeError, so every non-dict argument is an error. -/
def merge_configs : CVal → CVal → Except PyErr CVal
  | .node ds, .node us => Except.map .node (mergeEntries ds us)
  | _, _ => .error .attributeError

/-- The item loop of _merge_configs: for each user key in order, recurse
when the user value is a dict and the key is present in the accumulated
result, otherwise overwrite. -/
def mergeEntries : Entries → Entries → Except PyErr Entries
  | ds, .nil => .ok ds
  | ds, .cons k v us =>
    match getKey ds k, v with
    | some dv, .node _ => do
      let m ← merge_configs dv v
      mergeEntries (setKey ds k m) us
    | _, _ => mergeEntries (setKey ds k v) us
end

/-- Path lookup in a nested configuration value. -/
def lookupPath : CVal → List String → Option CVal
  | v, [] => some v
  | .node es, key :: p =>
    match getKey es key with
    | some w => lookupPath w p
    | none => none
  | .leaf _, _ :: _ => none

/-- The user omits a path when, following the path through nested dicts,
some step's key is absent from the corresponding user dict. -/
def omitsKey : CVal → List String → Bool
  | .node es, key :: p =>
    match getKey es key with
    | none => true
    | some w => omitsKey w p
  | _, _ => false

mutual
/-- Well-formedness of a configuration value as produced by Python dicts:
every nested dict has pairwise distinct keys. -/
def WFv : CVal → Bool
  | .leaf _ => true
  | .node es => WFe es

/-- Well-formedness of an entry list: distinct keys, well-formed values. -/
def WFe : Entries → Bool
  | .nil => true
  | .cons k v rest => !hasKey rest k && WFv v && WFe rest
end

/-- C1: For every non-negative millisecond value m, the mapper's
time-to-ticks conversion returns exactly floor(m * 480 / 500) under the
fixed tempo (500000 microseconds per beat, 480 ticks per beat); in
particular ticks(0) = 0 and ticks(1000) = 960. -/
theorem c1_tick_conversion :
    (∀ m : ℚ, 0 ≤ m → ms_to_ticks m = ⌊m * 480 / 500⌋) ∧
    ms_to_ticks 0 = 0 ∧ ms_to_ticks 1000 = 960 := by
  refine ⟨fun m hm => ?_, by norm_num [ms_to_ticks, pyInt],
    by norm_num [ms_to_ticks, pyInt]⟩
  have h5 : (500000 : ℚ) / 1000 = 500 := by norm_num
  rw [ms_to_ticks, h5, pyInt, if_pos (by positivity)]

/-- Witness for C1 at the concrete input m = 700. -/
theorem c1_tick_conversion_witness :
    ms_to_ticks 700 = ⌊(700 : ℚ) * 480 / 500⌋ :=
  c1_tick_conversion.1 700 (by norm_num)

theorem pyInt_of_nonneg {q : ℚ} (h : 0 ≤ q) : pyInt q = ⌊q⌋ := if_pos h

theorem pyMod_nonneg (a b : ℚ) (hb : 0 < b) : 0 ≤ pyMod a b := by
  rw [pyMod, sub_nonneg]
  calc b * ⌊a / b⌋ ≤ b * (a / b) :=
        mul_le_mul_of_nonneg_left (Int.floor_le _) hb.le
    _ = a := by field_simp

theorem pyMod_lt (a b : ℚ) (hb : 0 < b) : pyMod a b < b := by
  rw [pyMod, sub_lt_iff_lt_add]
  have h := Int.lt_floor_add_one (a / b)
  calc a = b * (a / b) := by field_simp
    _ < b * (⌊a / b⌋ + 1) := by
        exact mul_lt_mul_of_pos_left h hb
    _ = b + b * ⌊a / b⌋ := by ring

/-- The pitch computation written the way the claims word it: the wrapped
direction mapped by floor onto a scale index. -/
theorem direction_to_note_floor (angle : ℚ) (scale : List ℤ) (octave : ℤ) :
    direction_to_note angle scale octave =
      scale.getD ((⌊pyMod angle 360 / 360 * (scale.length : ℚ)⌋).emod scale.length).toNat 0
        + octave * 12 := by
  rw [direction_to_note]
  have h0 : 0 ≤ pyMod angle 360 / 360 * (scale.length : ℚ) := by
    have := pyMod_nonneg angle 360 (by norm_num)
    positivity
  rw [pyInt_of_nonneg h0]

theorem floor_min_127 (a : ℚ) : ⌊min a 127⌋ = min ⌊a⌋ 127 := by
  rcases le_total a 127 with h | h
  · rw [min_eq_left h, min_eq_left]
    calc ⌊a⌋ ≤ ⌊(127 : ℚ)⌋ := Int.floor_le_floor h
      _ = 127 := by norm_num
  · rw [min_eq_right h, min_eq_right]
    · norm_num
    · calc (127 : ℤ) = ⌊(127 : ℚ)⌋ := by norm_num
        _ ≤ ⌊a⌋ := Int.floor_le_floor h

/-- The medium velocity int(min(i * 127, 127)) is min(127, floor(i * 127))
for nonnegative intensity. -/
theorem med_velocity_floor (i : ℚ) (hi : 0 ≤ i) :
    pyInt (min (i * 127) 127) = min 127 ⌊i * 127⌋ := by
  rw [pyInt_of_nonneg (le_min (by positivity) (by norm_num)), floor_min_127,
    min_comm]

/-- The kept-sample loop of the medium track equals its reference form on
the filtered sample list, provided every kept sample carries a time. -/
theorem medLoop_eq (cfg : MediumConfig) (data : List MedSample)
    (h : ∀ s ∈ data, cfg.intensity_threshold ≤ s.intensity.getD 0 → s.time.isSome)
    (t0 : ℚ) :
    medLoop cfg data t0 = .ok (medEmit cfg t0 (keptMed cfg data)) := by
  induction data generalizing t0 with
  | nil => simp [medLoop, keptMed, medEmit]
  | cons s rest ih =>
    rcases lt_or_le (s.intensity.getD 0) cfg.intensity_threshold with hs | hs
    · have hrec := ih (fun x hx => h x (List.mem_cons_of_mem _ hx)) t0
      simp only [medLoop, if_pos hs, hrec]
      have hk : keptMed cfg (s :: rest) = keptMed cfg rest := by
        simp [keptMed, List.filter_cons, not_le.2 hs]
      rw [hk]
    · have ht : s.time.isSome := h s (List.mem_cons_self _ _) hs
      obtain ⟨t, ht'⟩ := Option.isSome_iff_exists.mp ht
      have hrec := ih (fun x hx => h x (List.mem_cons_of_mem _ hx)) t
      have hk : keptMed cfg (s :: rest) = s :: keptMed cfg rest := by
        simp [keptMed, List.filter_cons, hs]
      simp only [medLoop, if_neg (not_lt.2 hs), ht', getTime, hrec, hk, medEmit,
        Bind.bind, Except.bind]
      simp [ht']

/-- The reference form of the medium track contains exactly one note_on
per sample. -/
theorem medEmit_countP (cfg : MediumConfig) (t0 : ℚ) (l : List MedSample) :
    (medEmit cfg t0 l).countP Msg.isNoteOn = l.length := by
  induction l generalizing t0 with
  | nil => simp [medEmit]
  | cons s rest ih => simp [medEmit, List.countP_cons, Msg.isNoteOn, ih]

/-- The note_on delta-times of the reference form are the pairwise time
gaps of its samples. -/
theorem medEmit_noteOn_times (cfg : MediumConfig) (t0 : ℚ) (l : List MedSample) :
    ((medEmit cfg t0 l).filter Msg.isNoteOn).map Msg.time =
      deltaTicksOf t0 (l.map (fun s => s.time.getD 0)) := by
  induction l generalizing t0 with
  | nil => simp [medEmit, deltaTicksOf]
  | cons s rest ih =>
    simp [medEmit, List.filter_cons, Msg.isNoteOn, deltaTicksOf, Msg.time, ih]

/-- The (pitch, velocity) pairs of the reference form's note_ons, stated
with the floor-based claim formulas. -/
theorem medEmit_pairs (cfg : MediumConfig) (t0 : ℚ) (l : List MedSample)
    (hi : ∀ s ∈ l, 0 ≤ s.intensity.getD 0) :
    ((medEmit cfg t0 l).filter Msg.isNoteOn).map (fun m => (m.note, m.velocity)) =
      l.map (fun s =>
        (cfg.scale.getD ((⌊pyMod (s.direction.getD 0) 360 / 360 *
            (cfg.scale.length : ℚ)⌋).emod cfg.scale.length).toNat 0
            + cfg.base_octave * 12,
         min 127 ⌊s.intensity.getD 0 * 127⌋)) := by
  induction l generalizing t0 with
  | nil => simp [medEmit]
  | cons s rest ih =>
    have h1 := direction_to_note_floor (s.direction.getD 0) cfg.scale cfg.base_octave
    have h2 := med_velocity_floor (s.intensity.getD 0) (hi s (List.mem_cons_self _ _))
    have hrec := ih (s.time.getD 0) (fun x hx => hi x (List.mem_cons_of_mem _ hx))
    simp only [medEmit]
    rw [List.filter_cons_of_pos (by rfl),
      List.filter_cons_of_neg (by simp [Msg.isNoteOn]),
      List.map_cons, hrec, List.map_cons]
    rw [show Msg.note (Msg.note_on
        (direction_to_note (s.direction.getD 0) cfg.scale cfg.base_octave)
        (pyInt (min (s.intensity.getD 0 * 127) 127)) 0
        (ms_to_ticks (s.time.getD 0 - t0))) =
        direction_to_note (s.direction.getD 0) cfg.scale cfg.base_octave from rfl]
    rw [show Msg.velocity (Msg.note_on
        (direction_to_note (s.direction.getD 0) cfg.scale cfg.base_octave)
        (pyInt (min (s.intensity.getD 0 * 127) 127)) 0
        (ms_to_ticks (s.time.getD 0 - t0))) =
        pyInt (min (s.intensity.getD 0 * 127) 127) from rfl]
    rw [h1, h2]

/-- The note_off delta-times of the reference form are all the configured
decay in ticks. -/
theorem medEmit_noteOff_times (cfg : MediumConfig) (t0 : ℚ) (l : List MedSample) :
    ((medEmit cfg t0 l).filter Msg.isNoteOff).map Msg.time =
      l.map (fun _ => ms_to_ticks cfg.decay) := by
  induction l generalizing t0 with
  | nil => simp [medEmit]
  | cons s rest ih =>
    simp [medEmit, List.filter_cons, Msg.isNoteOff, Msg.time, ih]

/-- C2: In the medium track, for every input sequence of motion samples,
no NoteOn is ever emitted for a sample whose intensity is strictly below
the configured intensity threshold (default 1.0) — the number of note_ons
equals the number of kept samples — and the NoteOn delta-ticks are the
tick conversions of the gaps between consecutive kept sample times
starting from 0, so filtered-out samples contribute nothing to elapsed
delta-time. -/
theorem c2_medium_filter_and_deltas (cfg : MediumConfig) (data : List MedSample)
    (h : ∀ s ∈ data, cfg.intensity_threshold ≤ s.intensity.getD 0 → s.time.isSome) :
    ∀ msgs, create_medium_track cfg data = .ok msgs →
      msgs.countP Msg.isNoteOn = (keptMed cfg data).length ∧
      (msgs.filter Msg.isNoteOn).map Msg.time =
        deltaTicksOf 0 ((keptMed cfg data).map (fun s => s.time.getD 0)) := by
  intro msgs hm
  rw [create_medium_track] at hm
  rw [medLoop_eq cfg data h 0] at hm
  simp only [Bind.bind, Except.bind, Except.ok.injEq] at hm
  subst hm
  constructor
  · simp [List.countP_cons, Msg.isNoteOn, medEmit_countP]
  · simp [List.filter_cons, Msg.isNoteOn, medEmit_noteOn_times]

/-- Witness for C2: a three-sample stream whose middle sample is below
the default threshold. -/
theorem c2_medium_filter_and_deltas_witness :
    ([Msg.program_change 74 1 0, Msg.note_on 48 127 0 0,
      Msg.note_off 48 64 0 480, Msg.note_on 50 127 0 960,
      Msg.note_off 50 64 0 480] : List Msg).countP Msg.isNoteOn =
      (keptMed defaultMediumConfig
        [⟨some 0, some 2, some 0⟩, ⟨some 100, some (1/2), some 0⟩,
         ⟨some 1000, some 3, some 90⟩]).length ∧
    (([Msg.program_change 74 1 0, Msg.note_on 48 127 0 0,
       Msg.note_off 48 64 0 480, Msg.note_on 50 127 0 960,
       Msg.note_off 50 64 0 480] : List Msg).filter Msg.isNoteOn).map Msg.time =
      deltaTicksOf 0 ((keptMed defaultMediumConfig
        [⟨some 0, some 2, some 0⟩, ⟨some 100, some (1/2), some 0⟩,
         ⟨some 1000, some 3, some 90⟩]).map (fun s => s.time.getD 0)) :=
  c2_medium_filter_and_deltas defaultMediumConfig
    [⟨some 0, some 2, some 0⟩, ⟨some 100, some (1/2), some 0⟩,
     ⟨some 1000, some 3, some 90⟩]
    (by
      intro s hs _
      fin_cases hs <;> rfl)
    [Msg.program_change 74 1 0, Msg.note_on 48 127 0 0,
     Msg.note_off 48 64 0 480, Msg.note_on 50 127 0 960,
     Msg.note_off 50 64 0 480]
    (by
      norm_num [create_medium_track, medLoop, defaultMediumConfig,
        direction_to_note, pyMod, pyInt, ms_to_ticks, getTime,
        Bind.bind, Except.bind])

/-- C6 counterexample: with a configured intensity threshold of 1/2, the
kept sample of intensity 7/10 gets velocity int(min(0.7 * 127, 127)) =
int(88.9) = 88 from the code, whereas the claim's formula
min(127, round(intensity * 127)) = min(127, round(88.9)) gives 89. -/
theorem c6_counterexample :
    create_medium_track ⟨74, [0, 2, 4, 7, 9], 4, 500, 1/2⟩
      [⟨some 0, some (7/10), some 0⟩] =
      .ok [Msg.program_change 74 1 0, Msg.note_on 48 88 0 0,
           Msg.note_off 48 64 0 480] ∧
    min 127 (round ((7/10 : ℚ) * 127)) = 89 := by
  constructor
  · norm_num [create_medium_track, medLoop, direction_to_note, pyMod, pyInt,
      ms_to_ticks, getTime, Bind.bind, Except.bind]
  · norm_num [round_eq]

/-- C6 (amended): for every kept medium-track sample the emitted pitch is
scale[floor(direction/360 * len(scale)) mod len(scale)] + base_octave*12
with the direction first wrapped into [0,360), the emitted velocity is
min(127, floor(intensity * 127)) — truncation, not rounding, of the
nonnegative product — and each NoteOn is followed by a NoteOff delayed by
ticks(decay, default 500 ms). -/
theorem c6_amended (cfg : MediumConfig) (data : List MedSample)
    (hscale : cfg.scale ≠ [])
    (h : ∀ s ∈ data, cfg.intensity_threshold ≤ s.intensity.getD 0 → s.time.isSome)
    (hi : ∀ s ∈ data, 0 ≤ s.intensity.getD 0) :
    ∀ msgs, create_medium_track cfg data = .ok msgs →
      (msgs.filter Msg.isNoteOn).map (fun m => (m.note, m.velocity)) =
        (keptMed cfg data).map (fun s =>
          (cfg.scale.getD ((⌊pyMod (s.direction.getD 0) 360 / 360 *
              (cfg.scale.length : ℚ)⌋).emod cfg.scale.length).toNat 0
              + cfg.base_octave * 12,
           min 127 ⌊s.intensity.getD 0 * 127⌋)) ∧
      (msgs.filter Msg.isNoteOff).map Msg.time =
        (keptMed cfg data).map (fun _ => ms_to_ticks cfg.decay) := by
  intro msgs hm
  rw [create_medium_track] at hm
  rw [medLoop_eq cfg data h 0] at hm
  simp only [Bind.bind, Except.bind, Except.ok.injEq] at hm
  subst hm
  have hik : ∀ s ∈ keptMed cfg data, 0 ≤ s.intensity.getD 0 :=
    fun s hs => hi s (List.mem_of_mem_filter hs)
  constructor
  · rw [List.filter_cons_of_neg (by simp [Msg.isNoteOn])]
    exact medEmit_pairs cfg 0 (keptMed cfg data) hik
  · rw [List.filter_cons_of_neg (by simp [Msg.isNoteOff])]
    exact medEmit_noteOff_times cfg 0 (keptMed cfg data)

/-- Witness for the amended C6 at a concrete two-sample stream. -/
theorem c6_amended_witness :
    (([Msg.program_change 74 1 0, Msg.note_on 48 127 0 0,
       Msg.note_off 48 64 0 480, Msg.note_on 52 127 0 240,
       Msg.note_off 52 64 0 480] : List Msg).filter Msg.isNoteOn).map
        (fun m => (m.note, m.velocity)) =
      (keptMed defaultMediumConfig
        [⟨some 0, some 2, some 45⟩, ⟨some 250, some (3/2), some 200⟩]).map
        (fun s =>
          (defaultMediumConfig.scale.getD
            ((⌊pyMod (s.direction.getD 0) 360 / 360 *
              (defaultMediumConfig.scale.length : ℚ)⌋).emod
              defaultMediumConfig.scale.length).toNat 0
            + defaultMediumConfig.base_octave * 12,
           min 127 ⌊s.intensity.getD 0 * 127⌋)) ∧
    (([Msg.program_change 74 1 0, Msg.note_on 48 127 0 0,
       Msg.note_off 48 64 0 480, Msg.note_on 52 127 0 240,
       Msg.note_off 52 64 0 480] : List Msg).filter Msg.isNoteOff).map Msg.time =
      (keptMed defaultMediumConfig
        [⟨some 0, some 2, some 45⟩, ⟨some 250, some (3/2), some 200⟩]).map
        (fun _ => ms_to_ticks defaultMediumConfig.decay) :=
  c6_amended defaultMediumConfig
    [⟨some 0, some 2, some 45⟩, ⟨some 250, some (3/2), some 200⟩]
    (by simp [defaultMediumConfig])
    (by
      intro s hs _
      fin_cases hs <;> rfl)
    (by
      intro s hs
      fin_cases hs <;> norm_num)
    [Msg.program_change 74 1 0, Msg.note_on 48 127 0 0,
     Msg.note_off 48 64 0 480, Msg.note_on 52 127 0 240,
     Msg.note_off 52 64 0 480]
    (by
      norm_num [create_medium_track, medLoop, defaultMediumConfig,
        direction_to_note, pyMod, pyInt, ms_to_ticks, getTime,
        Bind.bind, Except.bind]
      decide)

/-- C9: evaluation of the assembled file at a medium stream with one kept
sample.  The track order is header, background, medium, details as the
claim says, but the note_on and note_off on the medium track carry MIDI
channel 0, not channel 1: the source builds them without a channel
argument, so mido's default channel 0 applies (likewise on the details
track), even though the program_change messages and the mapper's own
(unused) channel_mapping = {background: 0, medium: 1, details: 2} show
the per-track channel intent that the claim and spec state. -/
theorem c9_channel_bug :
    create_multitrack_midi defaultBackgroundConfig defaultMediumConfig
      defaultDetailsConfig [] [⟨some 0, some 2, some 0⟩] [] =
      .ok [[Msg.set_tempo 500000 0],
           [Msg.program_change 52 0 0],
           [Msg.program_change 74 1 0, Msg.note_on 48 127 0 0,
            Msg.note_off 48 64 0 480],
           [Msg.program_change 127 2 0]] := by
  norm_num [create_multitrack_midi, create_background_track, bgLoop,
    create_medium_track, medLoop, create_details_track, detLoop,
    add_note_cluster, defaultBackgroundConfig, defaultMediumConfig,
    defaultDetailsConfig, direction_to_note, pyMod, pyInt, ms_to_ticks,
    getTime, Bind.bind, Except.bind]

/-- A find? over a list split as prefix, hit, suffix returns the hit when
the predicate fails on the whole prefix and holds at the hit. -/
theorem find?_append_first {α : Type} (p : α → Bool) (l1 : List α) (res : α)
    (l2 : List α) (h1 : ∀ y ∈ l1, p y = false) (h2 : p res = true) :
    (l1 ++ res :: l2).find? p = some res := by
  induction l1 with
  | nil => simp [List.find?_cons, h2]
  | cons y t ih =>
    rw [List.cons_append, List.find?_cons, h1 y (List.mem_cons_self _ _)]
    exact ih (fun z hz => h1 z (List.mem_cons_of_mem _ hz))

/-- The Python max of a cluster is an element of the cluster. -/
theorem mainEventOf_mem (e0 : DetSample) (rest : List DetSample) :
    mainEventOf e0 rest ∈ e0 :: rest := by
  induction rest generalizing e0 with
  | nil => simp [mainEventOf]
  | cons x r ih =>
    rw [show mainEventOf e0 (x :: r) =
        mainEventOf (if e0.size.getD 0 < x.size.getD 0 then x else e0) r from rfl]
    by_cases hc : e0.size.getD 0 < x.size.getD 0
    · rw [if_pos hc]
      rcases List.mem_cons.mp (ih x) with h | h
      · rw [h]
        exact List.mem_cons_of_mem _ (List.mem_cons_self _ _)
      · exact List.mem_cons_of_mem _ (List.mem_cons_of_mem _ h)
    · rw [if_neg hc]
      rcases List.mem_cons.mp (ih e0) with h | h
      · rw [h]
        exact List.mem_cons_self _ _
      · exact List.mem_cons_of_mem _ (List.mem_cons_of_mem _ h)

/-- The Python max of a cluster has maximal size. -/
theorem mainEventOf_size (e0 : DetSample) (rest : List DetSample) :
    ∀ y ∈ e0 :: rest, y.size.getD 0 ≤ (mainEventOf e0 rest).size.getD 0 := by
  induction rest generalizing e0 with
  | nil =>
    intro y hy
    rcases List.mem_cons.mp hy with h | h
    · exact h ▸ le_refl _
    · cases h
  | cons x r ih =>
    intro y hy
    have hstep : mainEventOf e0 (x :: r) =
        mainEventOf (if e0.size.getD 0 < x.size.getD 0 then x else e0) r := rfl
    have hacc : ∀ z ∈ (if e0.size.getD 0 < x.size.getD 0 then x else e0) :: r,
        z.size.getD 0 ≤ (mainEventOf (if e0.size.getD 0 < x.size.getD 0 then x else e0) r).size.getD 0 :=
      ih _
    have hhead := hacc _ (List.mem_cons_self _ _)
    rw [hstep]
    rcases List.mem_cons.mp hy with h | h
    · subst h
      by_cases hc : y.size.getD 0 < x.size.getD 0
      · rw [if_pos hc] at hhead ⊢
        exact le_trans hc.le hhead
      · rw [if_neg hc] at hhead ⊢
        exact hhead
    · rcases List.mem_cons.mp h with h2 | h2
      · subst h2
        by_cases hc : e0.size.getD 0 < y.size.getD 0
        · rw [if_pos hc] at hhead ⊢
          exact hhead
        · rw [if_neg hc] at hhead ⊢
          exact le_trans (not_lt.mp hc) hhead
      · exact hacc y (List.mem_cons_of_mem _ h2)

/-- The Python max of a cluster is the first element of maximal size:
everything strictly before it is strictly smaller. -/
theorem mainEventOf_first (e0 : DetSample) (rest : List DetSample) :
    ∃ l1 l2, e0 :: rest = l1 ++ mainEventOf e0 rest :: l2 ∧
      ∀ y ∈ l1, y.size.getD 0 < (mainEventOf e0 rest).size.getD 0 := by
  induction rest generalizing e0 with
  | nil => exact ⟨[], [], rfl, by simp⟩
  | cons x r ih =>
    have hstep : mainEventOf e0 (x :: r) =
        mainEventOf (if e0.size.getD 0 < x.size.getD 0 then x else e0) r := rfl
    by_cases hc : e0.size.getD 0 < x.size.getD 0
    · obtain ⟨l1, l2, hsplit, hlt⟩ := ih x
      have hres : mainEventOf e0 (x :: r) = mainEventOf x r := by
        rw [hstep, if_pos hc]
      have hxle : x.size.getD 0 ≤ (mainEventOf x r).size.getD 0 :=
        mainEventOf_size x r x (List.mem_cons_self _ _)
      refine ⟨e0 :: l1, l2, ?_, ?_⟩
      · rw [hres, List.cons_append, ← hsplit]
      · intro y hy
        rcases List.mem_cons.mp hy with h | h
        · subst h
          rw [hres]
          exact lt_of_lt_of_le hc hxle
        · rw [hres]
          exact hlt y h
    · obtain ⟨l1, l2, hsplit, hlt⟩ := ih e0
      have hres : mainEventOf e0 (x :: r) = mainEventOf e0 r := by
        rw [hstep, if_neg hc]
      cases l1 with
      | nil =>
        rw [List.nil_append] at hsplit
        injection hsplit with h1 h2
        refine ⟨[], x :: r, ?_, by simp⟩
        rw [hres, ← h1, List.nil_append]
      | cons z l1t =>
        rw [List.cons_append] at hsplit
        have hz : z = e0 := (List.head_eq_of_cons_eq hsplit).symm
        have hr : r = l1t ++ mainEventOf e0 r :: l2 :=
          List.tail_eq_of_cons_eq hsplit
        refine ⟨e0 :: x :: l1t, l2, ?_, ?_⟩
        · rw [hres, List.cons_append, List.cons_append, ← hr]
        · intro y hy
          rw [hres]
          have he0lt : e0.size.getD 0 < (mainEventOf e0 r).size.getD 0 := by
            have := hlt z (List.mem_cons_self _ _)
            rw [hz] at this
            exact this
          rcases List.mem_cons.mp hy with h | h
          · exact h ▸ he0lt
          · rcases List.mem_cons.mp h with h2 | h2
            · subst h2
              exact lt_of_le_of_lt (not_lt.mp hc) he0lt
            · exact hlt y (hz ▸ List.mem_cons_of_mem _ h2)

/-- The spec's wording of the main-event choice (first event of maximal
area) computes the same event as the source's max call. -/
theorem specMainEvent_eq (e0 : DetSample) (rest : List DetSample) :
    specMainEvent (e0 :: rest) = some (mainEventOf e0 rest) := by
  obtain ⟨l1, l2, hsplit, hlt⟩ := mainEventOf_first e0 rest
  have hmax := mainEventOf_size e0 rest
  rw [specMainEvent, hsplit]
  apply find?_append_first
  · intro y hy
    rw [Bool.eq_false_iff]
    intro hall
    rw [List.all_eq_true] at hall
    have := hall (mainEventOf e0 rest) (by simp)
    rw [decide_eq_true_eq] at this
    exact absurd this (not_le.2 (hlt y hy))
  · rw [List.all_eq_true]
    intro z hz
    rw [decide_eq_true_eq]
    exact hmax z (hsplit ▸ hz)

/-- The grouping loop of the details track processes exactly the clusters
computed by the clustering rule, flushing each through _add_note_cluster,
provided every sample carries a time. -/
theorem detLoop_eq_clusters (cfg : DetailsConfig) :
    ∀ (data : List DetSample), (∀ s ∈ data, s.time.isSome) →
    ∀ (track : List Msg) (group : List DetSample), (∀ s ∈ group, s.time.isSome) →
    detLoop cfg data track group =
      List.foldlM (add_note_cluster cfg) track
        (clLoop cfg.group_threshold data group) := by
  intro data
  induction data with
  | nil =>
    intro _ track group _
    by_cases hg : group = []
    · subst hg
      simp [detLoop, clLoop, add_note_cluster, Pure.pure, Except.pure]
    · simp [detLoop, clLoop, hg, List.foldlM_cons, List.foldlM_nil, bind_pure]
  | cons e rest ih =>
    intro h track group hg
    have hte : ∃ te, e.time = some te :=
      Option.isSome_iff_exists.mp (h e (List.mem_cons_self _ _))
    obtain ⟨te, hte⟩ := hte
    have hrest : ∀ s ∈ rest, s.time.isSome :=
      fun s hs => h s (List.mem_cons_of_mem _ hs)
    cases hgl : group.getLast? with
    | none =>
      have hgnil : group = [] := List.getLast?_eq_none_iff.mp hgl
      subst hgnil
      simp only [detLoop, clLoop, hgl, hte, getTime, Bind.bind, Except.bind,
        List.nil_append]
      exact ih hrest track [e] (by
        intro s hs
        rw [List.mem_singleton.mp hs, hte]
        rfl)
    | some g =>
      have hgmem : g ∈ group := List.mem_of_getLast?_eq_some hgl
      obtain ⟨tg, htg⟩ := Option.isSome_iff_exists.mp (hg g hgmem)
      simp only [detLoop, clLoop, hgl, hte, htg, getTime, Bind.bind, Except.bind,
        Option.getD_some]
      by_cases hc : cfg.group_threshold < te - tg
      · rw [if_pos hc, if_pos hc, List.foldlM_cons]
        have hone : ∀ s ∈ [e], s.time.isSome := by
          intro s hs
          rw [List.mem_singleton.mp hs, hte]
          rfl
        cases hadd : add_note_cluster cfg track group with
        | error err => rfl
        | ok track2 =>
          simp only [Bind.bind, Except.bind]
          exact ih hrest track2 [e] hone
      · rw [if_neg hc, if_neg hc]
        exact ih hrest track (group ++ [e]) (by
          intro s hs
          rcases List.mem_append.mp hs with h2 | h2
          · exact hg s h2
          · rw [List.mem_singleton.mp h2, hte]
            rfl)

/-- The secondary-note loop is the flatMap over the cluster members that
are not (dict-)equal to the main event, in original order. -/
theorem secondaryNotes_eq_filter (cfg : DetailsConfig) (main_event : DetSample) :
    ∀ l, secondaryNotes cfg main_event l =
      (l.filter (fun e => e ≠ main_event)).flatMap (fun e =>
        [Msg.note_on (hue_to_note (e.hue.getD 0) cfg.note_range) 90 0 0,
         Msg.note_off (hue_to_note (e.hue.getD 0) cfg.note_range) 64 0
           (ms_to_ticks 30)]) := by
  intro l
  induction l with
  | nil => simp [secondaryNotes]
  | cons e t ih =>
    by_cases he : e = main_event
    · rw [secondaryNotes, if_pos he, ih, List.filter_cons_of_neg (by simp [he])]
    · rw [secondaryNotes, if_neg he, ih, List.filter_cons_of_pos (by simp [he])]
      rfl

/-- C3 counterexample: a cluster of two identical detail events (equal
dicts).  The source's secondary loop skips every event that compares
equal to the main event, so the duplicate emits nothing; the claim's
reading, under which the one remaining cluster event follows at delta 0
with velocity 90, would require the five-message result on the right. -/
theorem c3_counterexample :
    add_note_cluster defaultDetailsConfig [Msg.program_change 127 2 0]
      [⟨some 0, some 90, some 5⟩, ⟨some 0, some 90, some 5⟩] =
      .ok [Msg.program_change 127 2 0, Msg.note_on 90 127 0 0,
           Msg.note_off 90 64 0 48] ∧
    (Except.ok [Msg.program_change 127 2 0, Msg.note_on 90 127 0 0,
        Msg.note_off 90 64 0 48] : Except PyErr (List Msg)) ≠
      .ok [Msg.program_change 127 2 0, Msg.note_on 90 127 0 0,
           Msg.note_off 90 64 0 48, Msg.note_on 90 90 0 0,
           Msg.note_off 90 64 0 28] := by
  constructor
  · norm_num [add_note_cluster, mainEventOf, secondaryNotes, hue_to_note,
      defaultDetailsConfig, pyInt, ms_to_ticks, getTime, Msg.time,
      Bind.bind, Except.bind]
  · simp only [ne_eq, Except.ok.injEq]
    decide

/-- C3 (amended): for every flushed cluster the main note_on carries
delta-ticks equal to the tick conversion of (the main event's time minus
the time field of the last message already on the track, or 0 if the
track is empty), followed by the main note_off after 50 ms, and then by
velocity-90 note_on/note_off pairs at delta 0 for the remaining cluster
events in original order — except that any event comparing equal to the
main event (a duplicate dict) is skipped as well. -/
theorem c3_amended (cfg : DetailsConfig) (track : List Msg) (e0 : DetSample)
    (rest : List DetSample)
    (h : track = [] ∨ (mainEventOf e0 rest).time.isSome) :
    add_note_cluster cfg track (e0 :: rest) = .ok (track ++
      Msg.note_on (hue_to_note ((mainEventOf e0 rest).hue.getD 0) cfg.note_range)
        127 0 (ms_to_ticks (match track.getLast? with
          | some m => (mainEventOf e0 rest).time.getD 0 - (m.time : ℚ)
          | none => 0)) ::
      Msg.note_off (hue_to_note ((mainEventOf e0 rest).hue.getD 0) cfg.note_range)
        64 0 (ms_to_ticks 50) ::
      ((e0 :: rest).filter (fun e => e ≠ mainEventOf e0 rest)).flatMap (fun e =>
        [Msg.note_on (hue_to_note (e.hue.getD 0) cfg.note_range) 90 0 0,
         Msg.note_off (hue_to_note (e.hue.getD 0) cfg.note_range) 64 0
           (ms_to_ticks 30)])) := by
  rw [add_note_cluster]
  cases htr : track.getLast? with
  | none =>
    simp only [secondaryNotes_eq_filter]
    rfl
  | some m =>
    have hsome : (mainEventOf e0 rest).time.isSome := by
      rcases h with h | h
      · rw [h] at htr
        cases htr
      · exact h
    obtain ⟨t, ht⟩ := Option.isSome_iff_exists.mp hsome
    simp only [ht, getTime, Bind.bind, Except.bind, Option.getD_some,
      secondaryNotes_eq_filter]

/-- C7: the details track partitions its input into clusters by flushing
exactly when an incoming event's time exceeds the last accumulated
event's time by strictly more than the group threshold, flushing the
remainder after the loop — the track builder is the fold of
_add_note_cluster over that partition — events at times [0,10,20,80,90]
ms with threshold 50 ms form exactly the two clusters {0,10,20} and
{80,90}, and each cluster's main event is the one with the largest area,
ties broken by first occurrence. -/
theorem c7_details_clustering :
    (∀ (cfg : DetailsConfig) (data : List DetSample),
      (∀ s ∈ data, s.time.isSome) →
      create_details_track cfg data =
        List.foldlM (add_note_cluster cfg) [Msg.program_change cfg.program 2 0]
          (clustersOf cfg.group_threshold data)) ∧
    clustersOf 50
      [⟨some 0, some 30, some 5⟩, ⟨some 10, some 60, some 7⟩,
       ⟨some 20, some 90, some 6⟩, ⟨some 80, some 120, some 9⟩,
       ⟨some 90, some 150, some 2⟩] =
      [[⟨some 0, some 30, some 5⟩, ⟨some 10, some 60, some 7⟩,
        ⟨some 20, some 90, some 6⟩],
       [⟨some 80, some 120, some 9⟩, ⟨some 90, some 150, some 2⟩]] ∧
    (∀ (e0 : DetSample) (rest : List DetSample),
      specMainEvent (e0 :: rest) = some (mainEventOf e0 rest)) := by
  refine ⟨fun cfg data h => ?_, ?_, fun e0 rest => specMainEvent_eq e0 rest⟩
  · exact detLoop_eq_clusters cfg data h _ [] (by simp)
  · norm_num [clustersOf, clLoop] <;> simp

/-- Witness for C7 at concrete inputs. -/
theorem c7_details_clustering_witness :
    create_details_track defaultDetailsConfig [⟨some 0, some 90, some 10⟩] =
      List.foldlM (add_note_cluster defaultDetailsConfig)
        [Msg.program_change defaultDetailsConfig.program 2 0]
        (clustersOf defaultDetailsConfig.group_threshold
          [⟨some 0, some 90, some 10⟩]) ∧
    specMainEvent [⟨some 0, some 90, some 10⟩, ⟨some 5, some 20, some 10⟩] =
      some (mainEventOf ⟨some 0, some 90, some 10⟩ [⟨some 5, some 20, some 10⟩]) :=
  ⟨c7_details_clustering.1 defaultDetailsConfig _ (by
      intro s hs
      rw [List.mem_singleton.mp hs]
      rfl),
   c7_details_clustering.2.2 _ _⟩

/-- The background loop equals its reference form when every sample has a
time and a nonnegative (possibly defaulted) value_shift. -/
theorem bgLoop_eq (cfg : BackgroundConfig) (data : List BgSample)
    (h : ∀ s ∈ data, s.time.isSome ∧ 0 ≤ s.value_shift.getD 0) (t0 h0 : ℚ) :
    bgLoop cfg data t0 h0 = .ok (bgSpecEmit cfg t0 h0 data) := by
  induction data generalizing t0 h0 with
  | nil => simp [bgLoop, bgSpecEmit]
  | cons s rest ih =>
    obtain ⟨hts, hvs⟩ := h s (List.mem_cons_self _ _)
    obtain ⟨t, ht⟩ := Option.isSome_iff_exists.mp hts
    have hrec := ih (fun x hx => h x (List.mem_cons_of_mem _ hx)) t (s.hue_shift.getD 0)
    simp only [bgLoop, ht, getTime, Bind.bind, Except.bind, if_neg (not_lt.2 hvs),
      hrec, bgSpecEmit, Option.getD_some]
    rw [pyInt_of_nonneg (by positivity), min_comm, bg_velocity]

/-- C5 counterexample: for the single sample {time: 0, hue_shift: 0.1,
value_shift: 0}, the code emits ControlChange value int(|0.1 - 0| * 127)
= int(12.7) = 12 (truncation), whereas the claim's formula
min(127, round(|hue_shift - previous| * 127)) gives round(12.7) = 13. -/
theorem c5_counterexample :
    create_background_track defaultBackgroundConfig
      [⟨some 0, some (1/10), some 0⟩] =
      .ok [Msg.program_change 52 0 0, Msg.control_change 1 12 0 0,
           Msg.note_on 36 0 0 0, Msg.note_off 36 64 0 14400] ∧
    min 127 (round ((1/10 : ℚ) * 127)) = 13 := by
  constructor
  · norm_num [create_background_track, bgLoop, defaultBackgroundConfig,
      bg_velocity, pyInt, ms_to_ticks, getTime, Bind.bind, Except.bind,
      Real.sqrt_zero]
    rw [abs_of_nonneg (by norm_num : (0 : ℚ) ≤ 1/10)]
    norm_num
  · norm_num [round_eq]

/-- C5 (amended): in the background track, each sample in input order
yields exactly three events — a ControlChange on controller 1 with value
min(127, floor(|hue_shift − previous_hue_shift| * 127)) at delta-ticks =
ticks(sample time − previous sample time), then a NoteOn at the base
pitch with velocity floor(sqrt(value_shift) * 127) at delta 0, then a
NoteOff at the same pitch at delta ticks(decay) — with truncation (floor
on these nonnegative quantities), not rounding, in both the ControlChange
value and the velocity; previous_hue_shift and the previous sample time
start at 0 and update after each sample. -/
theorem c5_amended (cfg : BackgroundConfig) (data : List BgSample)
    (h : ∀ s ∈ data, s.time.isSome ∧ 0 ≤ s.value_shift.getD 0) :
    create_background_track cfg data =
      .ok (Msg.program_change cfg.program 0 0 :: bgSpecEmit cfg 0 0 data) := by
  rw [create_background_track, bgLoop_eq cfg data h 0 0]
  rfl

/-- Witness for the amended C5 at a concrete two-sample stream. -/
theorem c5_amended_witness :
    create_background_track defaultBackgroundConfig
      [⟨some 1000, some (1/2), some (1/4)⟩, ⟨some 2500, some (3/4), some 1⟩] =
      .ok (Msg.program_change defaultBackgroundConfig.program 0 0 ::
        bgSpecEmit defaultBackgroundConfig 0 0
          [⟨some 1000, some (1/2), some (1/4)⟩, ⟨some 2500, some (3/4), some 1⟩]) :=
  c5_amended defaultBackgroundConfig _ (by
    intro s hs
    fin_cases hs <;> exact ⟨rfl, by norm_num⟩)

/-- Witness for the amended C3 at a concrete cluster of two events. -/
theorem c3_amended_witness :
    add_note_cluster defaultDetailsConfig [Msg.program_change 127 2 0]
      (⟨some 100, some 60, some 3⟩ :: [⟨some 110, some 120, some 8⟩]) =
      .ok ([Msg.program_change 127 2 0] ++
        Msg.note_on (hue_to_note ((mainEventOf ⟨some 100, some 60, some 3⟩
            [⟨some 110, some 120, some 8⟩]).hue.getD 0)
            defaultDetailsConfig.note_range) 127 0
          (ms_to_ticks (match ([Msg.program_change 127 2 0] : List Msg).getLast? with
            | some m => (mainEventOf ⟨some 100, some 60, some 3⟩
                [⟨some 110, some 120, some 8⟩]).time.getD 0 - (m.time : ℚ)
            | none => 0)) ::
        Msg.note_off (hue_to_note ((mainEventOf ⟨some 100, some 60, some 3⟩
            [⟨some 110, some 120, some 8⟩]).hue.getD 0)
            defaultDetailsConfig.note_range) 64 0 (ms_to_ticks 50) ::
        ((⟨some 100, some 60, some 3⟩ :: [⟨some 110, some 120, some 8⟩]).filter
            (fun e => e ≠ mainEventOf ⟨some 100, some 60, some 3⟩
              [⟨some 110, some 120, some 8⟩])).flatMap (fun e =>
          [Msg.note_on (hue_to_note (e.hue.getD 0) defaultDetailsConfig.note_range)
             90 0 0,
           Msg.note_off (hue_to_note (e.hue.getD 0) defaultDetailsConfig.note_range)
             64 0 (ms_to_ticks 30)])) :=
  c3_amended defaultDetailsConfig [Msg.program_change 127 2 0]
    ⟨some 100, some 60, some 3⟩ [⟨some 110, some 120, some 8⟩]
    (Or.inr (by norm_num [mainEventOf]))

/-- C4 counterexample: a sample missing its time field aborts each of the
three track builders with a KeyError (the source reads event[&quot;time&quot;] by
subscript), instead of substituting the documented default. -/
theorem c4_counterexample :
    create_background_track defaultBackgroundConfig [⟨none, some 0, some 0⟩] =
      .error .keyErrorTime ∧
    create_medium_track defaultMediumConfig [⟨none, some 2, some 0⟩] =
      .error .keyErrorTime ∧
    create_details_track defaultDetailsConfig [⟨none, some 90, some 5⟩] =
      .error .keyErrorTime := by
  refine ⟨?_, ?_, ?_⟩
  · norm_num [create_background_track, bgLoop, getTime, Bind.bind, Except.bind]
  · norm_num [create_medium_track, medLoop, defaultMediumConfig, getTime,
      Bind.bind, Except.bind]
  · norm_num [create_details_track, detLoop, getTime, Bind.bind, Except.bind]

/-- Replacing missing non-time fields by 0 leaves the background loop
unchanged: the loop reads them through .get with default 0. -/
theorem bgLoop_fill (cfg : BackgroundConfig) :
    ∀ (data : List BgSample) (t0 h0 : ℚ),
    bgLoop cfg (data.map fillBg) t0 h0 = bgLoop cfg data t0 h0 := by
  intro data
  induction data with
  | nil => intro t0 h0; rfl
  | cons s rest ih =>
    intro t0 h0
    simp only [List.map_cons, bgLoop, fillBg, Option.getD_some, ih]

/-- Replacing missing non-time fields by 0 leaves the medium loop
unchanged. -/
theorem medLoop_fill (cfg : MediumConfig) :
    ∀ (data : List MedSample) (t0 : ℚ),
    medLoop cfg (data.map fillMed) t0 = medLoop cfg data t0 := by
  intro data
  induction data with
  | nil => intro t0; rfl
  | cons s rest ih =>
    intro t0
    simp only [List.map_cons, medLoop, fillMed, Option.getD_some, ih]

/-- Filling the optional fields commutes with the Python max selection:
the sizes read through .get are unchanged. -/
theorem mainEventOf_fill (e0 : DetSample) (rest : List DetSample) :
    mainEventOf (fillDet e0) (rest.map fillDet) = fillDet (mainEventOf e0 rest) := by
  induction rest generalizing e0 with
  | nil => rfl
  | cons x r ih =>
    rw [show mainEventOf e0 (x :: r) =
      mainEventOf (if e0.size.getD 0 < x.size.getD 0 then x else e0) r from rfl]
    rw [List.map_cons]
    rw [show mainEventOf (fillDet e0) (fillDet x :: r.map fillDet) =
      mainEventOf (if (fillDet e0).size.getD 0 < (fillDet x).size.getD 0 then
        fillDet x else fillDet e0) (r.map fillDet) from rfl]
    have hsz : ∀ s : DetSample, (fillDet s).size.getD 0 = s.size.getD 0 := by
      intro s; rfl
    rw [hsz, hsz]
    by_cases hc : e0.size.getD 0 < x.size.getD 0
    · rw [if_pos hc, if_pos hc, ih]
    · rw [if_neg hc, if_neg hc, ih]

/-- Filling the optional fields leaves the secondary-note loop unchanged
when no non-main event becomes identical to the main event through the
substitution. -/
theorem secondaryNotes_fill (cfg : DetailsConfig) (main_event : DetSample) :
    ∀ (l : List DetSample),
    (∀ x ∈ l, fillDet x = fillDet main_event → x = main_event) →
    secondaryNotes cfg (fillDet main_event) (l.map fillDet) =
      secondaryNotes cfg main_event l := by
  intro l
  induction l with
  | nil => intro _; rfl
  | cons e t ih =>
    intro hinj
    have hrec := ih (fun x hx => hinj x (List.mem_cons_of_mem _ hx))
    by_cases he : e = main_event
    · rw [List.map_cons, secondaryNotes, if_pos (by rw [he]), secondaryNotes,
        if_pos he, hrec]
    · have hne : ¬ fillDet e = fillDet main_event :=
        fun hf => he (hinj e (List.mem_cons_self _ _) hf)
      rw [List.map_cons, secondaryNotes, if_neg hne, secondaryNotes, if_neg he,
        hrec]
      rfl

/-- Filling the optional fields leaves a cluster flush unchanged when the
substitution identifies no two distinct cluster events. -/
theorem add_note_cluster_fill (cfg : DetailsConfig) (track : List Msg)
    (events : List DetSample)
    (hinj : ∀ x ∈ events, ∀ y ∈ events, fillDet x = fillDet y → x = y) :
    add_note_cluster cfg track (events.map fillDet) =
      add_note_cluster cfg track events := by
  cases events with
  | nil => rfl
  | cons e0 rest =>
    have hmain := mainEventOf_fill e0 rest
    have hmm : mainEventOf e0 rest ∈ e0 :: rest := mainEventOf_mem e0 rest
    rw [List.map_cons, add_note_cluster, add_note_cluster, hmain]
    have hhue : (fillDet (mainEventOf e0 rest)).hue.getD 0 =
        (mainEventOf e0 rest).hue.getD 0 := rfl
    have htime : (fillDet (mainEventOf e0 rest)).time =
        some ((mainEventOf e0 rest).time.getD 0) → True := fun _ => trivial
    have hsec := secondaryNotes_fill cfg (mainEventOf e0 rest) (e0 :: rest)
      (fun x hx hf => hinj x hx (mainEventOf e0 rest) hmm hf)
    rw [← List.map_cons, hsec]
    have ht : (fillDet (mainEventOf e0 rest)).time =
        (mainEventOf e0 rest).time := rfl
    simp only [ht, hhue]

/-- Filling the optional fields commutes with the clustering rule: the
grouping only reads the (preserved) time fields. -/
theorem clLoop_fill (threshold : ℚ) :
    ∀ (data group : List DetSample),
    clLoop threshold (data.map fillDet) (group.map fillDet) =
      (clLoop threshold data group).map (List.map fillDet) := by
  intro data
  induction data with
  | nil =>
    intro group
    by_cases hg : group = []
    · subst hg; rfl
    · simp [clLoop, hg]
  | cons e rest ih =>
    intro group
    have htg : ∀ s : DetSample, (fillDet s).time.getD 0 = s.time.getD 0 := by
      intro s; rfl
    cases hgl : group.getLast? with
    | none =>
      have : (group.map fillDet).getLast? = none := by
        rw [List.getLast?_map, hgl]; rfl
      simp only [List.map_cons, clLoop, this, hgl]
      have := ih (group ++ [e])
      rw [List.map_append] at this
      exact this
    | some g =>
      have hfl : (group.map fillDet).getLast? = some (fillDet g) := by
        rw [List.getLast?_map, hgl]; rfl
      simp only [List.map_cons, clLoop, hfl, hgl, htg]
      by_cases hc : threshold < e.time.getD 0 - g.time.getD 0
      · rw [if_pos hc, if_pos hc, List.map_cons]
        have := ih [e]
        rw [show ([e].map fillDet) = [fillDet e] from rfl] at this
        rw [this]
      · rw [if_neg hc, if_neg hc]
        have := ih (group ++ [e])
        rw [List.map_append] at this
        exact this

/-- Every member of every cluster comes from the pending group or the
remaining data. -/
theorem clLoop_subset (threshold : ℚ) :
    ∀ (data group : List DetSample) (c : List DetSample),
    c ∈ clLoop threshold data group → ∀ x ∈ c, x ∈ group ++ data := by
  intro data
  induction data with
  | nil =>
    intro group c hc x hx
    by_cases hg : group = []
    · subst hg; simp [clLoop] at hc
    · simp only [clLoop, if_neg hg, List.mem_singleton] at hc
      subst hc
      simp [hx]
  | cons e rest ih =>
    intro group c hc x hx
    cases hgl : group.getLast? with
    | none =>
      rw [clLoop, hgl] at hc
      have := ih (group ++ [e]) c hc x hx
      simpa [List.mem_append, or_assoc] using this
    | some g =>
      simp only [clLoop, hgl] at hc
      by_cases hcond : threshold < e.time.getD 0 - g.time.getD 0
      · rw [if_pos hcond] at hc
        rcases List.mem_cons.mp hc with h | h
        · subst h
          exact List.mem_append_left _ hx
        · have := ih [e] c h x hx
          rcases List.mem_append.mp this with h2 | h2
          · rw [List.mem_singleton.mp h2]
            exact List.mem_append_right _ (List.mem_cons_self _ _)
          · exact List.mem_append_right _ (List.mem_cons_of_mem _ h2)
      · rw [if_neg hcond] at hc
        have := ih (group ++ [e]) c hc x hx
        simpa [List.mem_append, or_assoc] using this

/-- A cluster flush succeeds whenever every cluster event has a time. -/
theorem add_note_cluster_isOk (cfg : DetailsConfig) (track : List Msg)
    (events : List DetSample) (h : ∀ s ∈ events, s.time.isSome) :
    ∃ msgs, add_note_cluster cfg track events = .ok msgs := by
  cases events with
  | nil => exact ⟨track, rfl⟩
  | cons e0 rest =>
    obtain ⟨t, ht⟩ := Option.isSome_iff_exists.mp
      (h (mainEventOf e0 rest) (mainEventOf_mem e0 rest))
    rw [add_note_cluster]
    cases htr : track.getLast? with
    | none => exact ⟨_, rfl⟩
    | some m =>
      rw [ht]
      exact ⟨_, rfl⟩

/-- Folding cluster flushes over clusters of timed events succeeds. -/
theorem foldlM_clusters_isOk (cfg : DetailsConfig) :
    ∀ (cs : List (List DetSample)) (track : List Msg),
    (∀ c ∈ cs, ∀ s ∈ c, s.time.isSome) →
    ∃ msgs, List.foldlM (add_note_cluster cfg) track cs = .ok msgs := by
  intro cs
  induction cs with
  | nil => intro track _; exact ⟨track, rfl⟩
  | cons c rest ih =>
    intro track h
    obtain ⟨track2, h2⟩ := add_note_cluster_isOk cfg track c
      (h c (List.mem_cons_self _ _))
    obtain ⟨msgs, hm⟩ := ih track2 (fun d hd => h d (List.mem_cons_of_mem _ hd))
    refine ⟨msgs, ?_⟩
    rw [List.foldlM_cons, h2]
    simpa [Bind.bind, Except.bind] using hm

/-- Folding cluster flushes is unchanged by the default substitution when
the substitution identifies no two events of any cluster. -/
theorem foldlM_clusters_fill (cfg : DetailsConfig) :
    ∀ (cs : List (List DetSample)) (track : List Msg),
    (∀ c ∈ cs, ∀ x ∈ c, ∀ y ∈ c, fillDet x = fillDet y → x = y) →
    List.foldlM (add_note_cluster cfg) track (cs.map (List.map fillDet)) =
      List.foldlM (add_note_cluster cfg) track cs := by
  intro cs
  induction cs with
  | nil => intro track _; rfl
  | cons c rest ih =>
    intro track h
    rw [List.map_cons, List.foldlM_cons, List.foldlM_cons,
      add_note_cluster_fill cfg track c (h c (List.mem_cons_self _ _))]
    cases add_note_cluster cfg track c with
    | error err => rfl
    | ok track2 =>
      simp only [Bind.bind, Except.bind]
      exact ih track2 (fun d hd => h d (List.mem_cons_of_mem _ hd))

/-- C4 (amended): each track builder substitutes the documented default 0
for a missing hue_shift, value_shift, intensity, direction, hue or size
and completes the track, but a sample missing its time field raises
KeyError and aborts the track (in the background and details builders for
any sample, in the medium builder for kept samples); the background
builder additionally requires a nonnegative value_shift (math.sqrt raises
on negative input), and in the details track the substitution is
behaviour-preserving only when it identifies no two cluster events,
because the secondary-note skip compares whole sample dicts. -/
theorem c4_amended :
    (∀ (cfg : BackgroundConfig) (data : List BgSample),
      (∀ s ∈ data, s.time.isSome ∧ 0 ≤ s.value_shift.getD 0) →
      ∃ msgs, create_background_track cfg data = .ok msgs) ∧
    (∀ (cfg : BackgroundConfig) (data : List BgSample),
      create_background_track cfg (data.map fillBg) =
        create_background_track cfg data) ∧
    (∀ (cfg : MediumConfig) (data : List MedSample),
      (∀ s ∈ data, cfg.intensity_threshold ≤ s.intensity.getD 0 →
        s.time.isSome) →
      ∃ msgs, create_medium_track cfg data = .ok msgs) ∧
    (∀ (cfg : MediumConfig) (data : List MedSample),
      create_medium_track cfg (data.map fillMed) =
        create_medium_track cfg data) ∧
    (∀ (cfg : DetailsConfig) (data : List DetSample),
      (∀ s ∈ data, s.time.isSome) →
      ∃ msgs, create_details_track cfg data = .ok msgs) ∧
    (∀ (cfg : DetailsConfig) (data : List DetSample),
      (∀ s ∈ data, s.time.isSome) →
      (∀ x ∈ data, ∀ y ∈ data, fillDet x = fillDet y → x = y) →
      create_details_track cfg (data.map fillDet) =
        create_details_track cfg data) := by
  refine ⟨?_, ?_, ?_, ?_, ?_, ?_⟩
  · intro cfg data h
    refine ⟨Msg.program_change cfg.program 0 0 :: bgSpecEmit cfg 0 0 data, ?_⟩
    rw [create_background_track, bgLoop_eq cfg data h 0 0]
    rfl
  · intro cfg data
    rw [create_background_track, create_background_track, bgLoop_fill]
  · intro cfg data h
    refine ⟨Msg.program_change cfg.program 1 0 ::
      medEmit cfg 0 (keptMed cfg data), ?_⟩
    rw [create_medium_track, medLoop_eq cfg data h 0]
    rfl
  · intro cfg data
    rw [create_medium_track, create_medium_track, medLoop_fill]
  · intro cfg data h
    simp only [create_details_track]
    rw [detLoop_eq_clusters cfg data h _ [] (by simp)]
    refine foldlM_clusters_isOk cfg _ _ ?_
    intro c hc s hs
    have := clLoop_subset cfg.group_threshold data [] c hc s hs
    rw [List.nil_append] at this
    exact h s this
  · intro cfg data hp hinj
    have hpm : ∀ s ∈ data.map fillDet, s.time.isSome := by
      intro s hs
      obtain ⟨x, hx, rfl⟩ := List.mem_map.mp hs
      exact hp x hx
    simp only [create_details_track]
    rw [detLoop_eq_clusters cfg (data.map fillDet) hpm _ [] (by simp),
      detLoop_eq_clusters cfg data hp _ [] (by simp)]
    rw [show clLoop cfg.group_threshold (data.map fillDet) [] =
        (clLoop cfg.group_threshold data []).map (List.map fillDet) from
        clLoop_fill cfg.group_threshold data []]
    refine foldlM_clusters_fill cfg _ _ ?_
    intro c hc x hx y hy hf
    have hxd := clLoop_subset cfg.group_threshold data [] c hc x hx
    have hyd := clLoop_subset cfg.group_threshold data [] c hc y hy
    rw [List.nil_append] at hxd hyd
    exact hinj x hxd y hyd hf

/-- Witness for the amended C4 at concrete single-sample streams with
missing optional fields. -/
theorem c4_amended_witness :
    (∃ msgs, create_background_track defaultBackgroundConfig
      [⟨some 0, none, none⟩] = .ok msgs) ∧
    create_background_track defaultBackgroundConfig
        ([⟨some 0, none, none⟩].map fillBg) =
      create_background_track defaultBackgroundConfig [⟨some 0, none, none⟩] ∧
    (∃ msgs, create_medium_track defaultMediumConfig
      [⟨some 0, some 2, none⟩] = .ok msgs) ∧
    create_medium_track defaultMediumConfig
        ([⟨some 0, some 2, none⟩].map fillMed) =
      create_medium_track defaultMediumConfig [⟨some 0, some 2, none⟩] ∧
    (∃ msgs, create_details_track defaultDetailsConfig
      [⟨some 0, none, none⟩] = .ok msgs) ∧
    create_details_track defaultDetailsConfig
        ([⟨some 0, none, none⟩].map fillDet) =
      create_details_track defaultDetailsConfig [⟨some 0, none, none⟩] :=
  ⟨c4_amended.1 _ _ (by
      intro s hs
      fin_cases hs
      exact ⟨rfl, le_refl 0⟩),
   c4_amended.2.1 _ _,
   c4_amended.2.2.1 _ _ (by
      intro s hs _
      fin_cases hs
      rfl),
   c4_amended.2.2.2.1 _ _,
   c4_amended.2.2.2.2.1 _ _ (by
      intro s hs
      fin_cases hs
      rfl),
   c4_amended.2.2.2.2.2 _ _ (by
      intro s hs
      fin_cases hs
      rfl)
     (by
      intro x hx y hy _
      fin_cases hx
      fin_cases hy
      rfl)⟩

/-- The background velocity floor(sqrt(v) * 127) lies in [0, 127] for
v in [0, 1]. -/
theorem bg_velocity_bounds (v : ℚ) (h1 : v ≤ 1) :
    0 ≤ bg_velocity v ∧ bg_velocity v ≤ 127 := by
  constructor
  · rw [bg_velocity]
    apply Int.le_floor.mpr
    have := Real.sqrt_nonneg ((v : ℚ) : ℝ)
    push_cast
    positivity
  · rw [bg_velocity]
    have hs : Real.sqrt ((v : ℚ) : ℝ) ≤ 1 := by
      rw [Real.sqrt_le_one]
      exact_mod_cast h1
    calc ⌊Real.sqrt ((v : ℚ) : ℝ) * 127⌋ ≤ ⌊(127 : ℝ)⌋ :=
          Int.floor_le_floor (by nlinarith [Real.sqrt_nonneg ((v : ℚ) : ℝ)])
      _ = 127 := by norm_num

/-- The modulation value min(int(c * 127), 127) lies in [0, 127] for a
nonnegative change c. -/
theorem mod_value_bounds (c : ℚ) (h0 : 0 ≤ c) :
    0 ≤ min (pyInt (c * 127)) 127 ∧ min (pyInt (c * 127)) 127 ≤ 127 := by
  constructor
  · apply le_min
    · rw [pyInt_of_nonneg (by positivity)]
      apply Int.le_floor.mpr
      positivity
    · norm_num
  · exact min_le_right _ _

/-- The medium velocity int(min(i * 127, 127)) lies in [0, 127] for
nonnegative intensity. -/
theorem med_velocity_bounds (i : ℚ) (h0 : 0 ≤ i) :
    0 ≤ pyInt (min (i * 127) 127) ∧ pyInt (min (i * 127) 127) ≤ 127 := by
  rw [pyInt_of_nonneg (le_min (by positivity) (by norm_num))]
  constructor
  · apply Int.le_floor.mpr
    have : (0 : ℚ) ≤ min (i * 127) 127 := le_min (by positivity) (by norm_num)
    exact_mod_cast this
  · calc ⌊min (i * 127) 127⌋ ≤ ⌊(127 : ℚ)⌋ := Int.floor_le_floor (min_le_right _ _)
      _ = 127 := by norm_num

/-- Every lookup into the default pentatonic scale yields an offset in
[0, 9]. -/
theorem default_scale_getD (n : ℕ) :
    0 ≤ List.getD [0, 2, 4, 7, 9] n (0 : ℤ) ∧
      List.getD [0, 2, 4, 7, 9] n (0 : ℤ) ≤ 9 := by
  rcases n with _ | _ | _ | _ | _ | m <;> simp [List.getD]

/-- With the default medium configuration the emitted pitch lies in
[48, 57]. -/
theorem direction_to_note_bounds (d : ℚ) :
    48 ≤ direction_to_note d [0, 2, 4, 7, 9] 4 ∧
      direction_to_note d [0, 2, 4, 7, 9] 4 ≤ 57 := by
  rw [direction_to_note]
  obtain ⟨h0, h9⟩ := default_scale_getD
    ((pyInt (pyMod d 360 / 360 * ([0, 2, 4, 7, 9] : List ℤ).length)).emod
      ([0, 2, 4, 7, 9] : List ℤ).length).toNat
  constructor
  · omega
  · omega

/-- With the default note range [84, 96] and hue in [0, 180), the details
pitch int(84 + hue/180 * 12) lies in [84, 95]. -/
theorem hue_to_note_bounds (h : ℚ) (h0 : 0 ≤ h) (h180 : h < 180) :
    84 ≤ hue_to_note h (84, 96) ∧ hue_to_note h (84, 96) ≤ 95 := by
  have hx0 : (0 : ℚ) ≤ 84 + h / 180 * 12 := by positivity
  have hval : hue_to_note h (84, 96) = ⌊(84 : ℚ) + h / 180 * 12⌋ := by
    rw [hue_to_note]
    norm_num [pyInt_of_nonneg hx0]
  rw [hval]
  constructor
  · apply Int.le_floor.mpr
    push_cast
    nlinarith
  · have hlt : (84 : ℚ) + h / 180 * 12 < 96 := by nlinarith
    have := Int.floor_lt.mpr
      (by exact_mod_cast hlt : (84 : ℚ) + h / 180 * 12 < ((96 : ℤ) : ℚ))
    omega

/-- All messages of the background reference form are in range when the
samples and the previous hue state are. -/
theorem bgSpecEmit_inRange :
    ∀ (data : List BgSample) (t0 h0 : ℚ),
    (∀ s ∈ data, 0 ≤ s.hue_shift.getD 0 ∧ s.hue_shift.getD 0 ≤ 1 ∧
      s.value_shift.getD 0 ≤ 1) →
    0 ≤ h0 → h0 ≤ 1 →
    ∀ m ∈ bgSpecEmit defaultBackgroundConfig t0 h0 data, msgInRange m := by
  intro data
  induction data with
  | nil => intro t0 h0 _ _ _ m hm; cases hm
  | cons s rest ih =>
    intro t0 h0 h hh0 hh1 m hm
    obtain ⟨hs0, hs1, hv1⟩ := h s (List.mem_cons_self _ _)
    rcases List.mem_cons.mp hm with rfl | hm
    · obtain ⟨ha, hb⟩ := mod_value_bounds |s.hue_shift.getD 0 - h0| (abs_nonneg _)
      rw [show min 127 ⌊|s.hue_shift.getD 0 - h0| * 127⌋ =
        min (pyInt (|s.hue_shift.getD 0 - h0| * 127)) 127 from by
          rw [pyInt_of_nonneg (by positivity), min_comm]]
      exact ⟨ha, hb⟩
    · rcases List.mem_cons.mp hm with rfl | hm
      · obtain ⟨ha, hb⟩ := bg_velocity_bounds (s.value_shift.getD 0) hv1
        rw [show (⌊Real.sqrt ((s.value_shift.getD 0 : ℚ) : ℝ) * 127⌋ : ℤ) =
          bg_velocity (s.value_shift.getD 0) from rfl]
        exact ⟨by norm_num [defaultBackgroundConfig], by norm_num [defaultBackgroundConfig], ha, hb⟩
      · rcases List.mem_cons.mp hm with rfl | hm
        · exact trivial
        · exact ih (s.time.getD 0) (s.hue_shift.getD 0)
            (fun x hx => h x (List.mem_cons_of_mem _ hx)) hs0 hs1 m hm

/-- All messages of the medium reference form are in range with the
default configuration and nonnegative intensities. -/
theorem medEmit_inRange :
    ∀ (l : List MedSample) (t0 : ℚ),
    (∀ s ∈ l, 0 ≤ s.intensity.getD 0) →
    ∀ m ∈ medEmit defaultMediumConfig t0 l, msgInRange m := by
  intro l
  induction l with
  | nil => intro t0 _ m hm; cases hm
  | cons s rest ih =>
    intro t0 h m hm
    rcases List.mem_cons.mp hm with rfl | hm
    · obtain ⟨hp1, hp2⟩ := direction_to_note_bounds (s.direction.getD 0)
      obtain ⟨hv1, hv2⟩ :=
        med_velocity_bounds (s.intensity.getD 0) (h s (List.mem_cons_self _ _))
      simp only [defaultMediumConfig]
      exact ⟨by omega, by omega, hv1, hv2⟩
    · rcases List.mem_cons.mp hm with rfl | hm
      · exact trivial
      · exact ih (s.time.getD 0) (fun x hx => h x (List.mem_cons_of_mem _ hx)) m hm

/-- All secondary notes of a cluster are in range when every cluster hue
is in [0, 180). -/
theorem secondaryNotes_inRange (main_event : DetSample) :
    ∀ (l : List DetSample),
    (∀ s ∈ l, 0 ≤ s.hue.getD 0 ∧ s.hue.getD 0 < 180) →
    ∀ m ∈ secondaryNotes defaultDetailsConfig main_event l, msgInRange m := by
  intro l
  induction l with
  | nil => intro _ m hm; cases hm
  | cons e t ih =>
    intro h m hm
    rw [secondaryNotes] at hm
    by_cases he : e = main_event
    · rw [if_pos he] at hm
      exact ih (fun x hx => h x (List.mem_cons_of_mem _ hx)) m hm
    · rw [if_neg he] at hm
      obtain ⟨hh0, hh1⟩ := h e (List.mem_cons_self _ _)
      obtain ⟨hn1, hn2⟩ := hue_to_note_bounds (e.hue.getD 0) hh0 hh1
      rcases List.mem_cons.mp hm with rfl | hm
      · simp only [defaultDetailsConfig]
        exact ⟨by omega, by omega, by norm_num, by norm_num⟩
      · rcases List.mem_cons.mp hm with rfl | hm
        · exact trivial
        · exact ih (fun x hx => h x (List.mem_cons_of_mem _ hx)) m hm

/-- A cluster flush preserves the range property of the track when every
cluster hue is in [0, 180). -/
theorem add_note_cluster_inRange (track : List Msg) (events : List DetSample)
    (msgs : List Msg) (htr : ∀ m ∈ track, msgInRange m)
    (h : ∀ s ∈ events, 0 ≤ s.hue.getD 0 ∧ s.hue.getD 0 < 180)
    (hok : add_note_cluster defaultDetailsConfig track events = .ok msgs) :
    ∀ m ∈ msgs, msgInRange m := by
  cases events with
  | nil =>
    rw [add_note_cluster] at hok
    cases hok
    exact htr
  | cons e0 rest =>
    obtain ⟨hm0, hm180⟩ := h (mainEventOf e0 rest) (mainEventOf_mem e0 rest)
    obtain ⟨hn1, hn2⟩ := hue_to_note_bounds ((mainEventOf e0 rest).hue.getD 0) hm0 hm180
    have hmain : ∀ dt : ℤ, msgInRange (Msg.note_on
        (hue_to_note ((mainEventOf e0 rest).hue.getD 0)
          defaultDetailsConfig.note_range) 127 0 dt) := by
      intro dt
      simp only [defaultDetailsConfig]
      exact ⟨by omega, by omega, by norm_num, by norm_num⟩
    have hfin : ∀ (dt : ℤ),
        msgs = track ++
          Msg.note_on (hue_to_note ((mainEventOf e0 rest).hue.getD 0)
            defaultDetailsConfig.note_range) 127 0 dt ::
          Msg.note_off (hue_to_note ((mainEventOf e0 rest).hue.getD 0)
            defaultDetailsConfig.note_range) 64 0 (ms_to_ticks 50) ::
          secondaryNotes defaultDetailsConfig (mainEventOf e0 rest) (e0 :: rest) →
        ∀ m ∈ msgs, msgInRange m := by
      intro dt hmsgs m hm
      subst hmsgs
      rcases List.mem_append.mp hm with hm | hm
      · exact htr m hm
      · rcases List.mem_cons.mp hm with rfl | hm
        · exact hmain dt
        · rcases List.mem_cons.mp hm with rfl | hm
          · exact trivial
          · exact secondaryNotes_inRange (mainEventOf e0 rest) (e0 :: rest) h m hm
    rw [add_note_cluster] at hok
    cases htrl : track.getLast? with
    | none =>
      rw [htrl] at hok
      simp only [Bind.bind, Except.bind, Except.ok.injEq] at hok
      exact hfin _ hok.symm
    | some mlast =>
      rw [htrl] at hok
      cases hmt : (mainEventOf e0 rest).time with
      | none =>
        rw [hmt] at hok
        simp [getTime, Bind.bind, Except.bind] at hok
      | some t =>
        rw [hmt] at hok
        simp only [getTime, Bind.bind, Except.bind, Except.ok.injEq] at hok
        exact hfin _ hok.symm

/-- Folding cluster flushes over hue-ranged clusters preserves the range
property of the track. -/
theorem foldlM_clusters_inRange :
    ∀ (cs : List (List DetSample)) (track msgs : List Msg),
    (∀ m ∈ track, msgInRange m) →
    (∀ c ∈ cs, ∀ s ∈ c, 0 ≤ s.hue.getD 0 ∧ s.hue.getD 0 < 180) →
    List.foldlM (add_note_cluster defaultDetailsConfig) track cs = .ok msgs →
    ∀ m ∈ msgs, msgInRange m := by
  intro cs
  induction cs with
  | nil =>
    intro track msgs htr _ hok
    rw [List.foldlM_nil] at hok
    cases hok
    exact htr
  | cons c rest ih =>
    intro track msgs htr h hok
    rw [List.foldlM_cons] at hok
    cases hadd : add_note_cluster defaultDetailsConfig track c with
    | error err =>
      rw [hadd] at hok
      simp [Bind.bind, Except.bind] at hok
    | ok track2 =>
      rw [hadd] at hok
      simp only [Bind.bind, Except.bind] at hok
      exact ih track2 msgs
        (add_note_cluster_inRange track c track2 htr
          (h c (List.mem_cons_self _ _)) hadd)
        (fun d hd => h d (List.mem_cons_of_mem _ hd)) hok

/-- C10: for every analysis input whose samples satisfy the data-model
ranges (hue_shift and value_shift in [0,1], intensity nonnegative, blob
hue in [0,180), every sample carrying a time) and the default track
configurations, every NoteOn emitted on any of the three tracks has
pitch and velocity within [0,127] and every ControlChange value is within
[0,127]. -/
theorem c10_ranges :
    (∀ (data : List BgSample) (msgs : List Msg),
      (∀ s ∈ data, s.time.isSome ∧ 0 ≤ s.hue_shift.getD 0 ∧
        s.hue_shift.getD 0 ≤ 1 ∧ 0 ≤ s.value_shift.getD 0 ∧
        s.value_shift.getD 0 ≤ 1) →
      create_background_track defaultBackgroundConfig data = .ok msgs →
      ∀ m ∈ msgs, msgInRange m) ∧
    (∀ (data : List MedSample) (msgs : List Msg),
      (∀ s ∈ data, s.time.isSome ∧ 0 ≤ s.intensity.getD 0) →
      create_medium_track defaultMediumConfig data = .ok msgs →
      ∀ m ∈ msgs, msgInRange m) ∧
    (∀ (data : List DetSample) (msgs : List Msg),
      (∀ s ∈ data, s.time.isSome ∧ 0 ≤ s.hue.getD 0 ∧ s.hue.getD 0 < 180) →
      create_details_track defaultDetailsConfig data = .ok msgs →
      ∀ m ∈ msgs, msgInRange m) := by
  refine ⟨?_, ?_, ?_⟩
  · intro data msgs h hok
    rw [create_background_track,
      bgLoop_eq defaultBackgroundConfig data
        (fun s hs => ⟨(h s hs).1, (h s hs).2.2.2.1⟩) 0 0] at hok
    simp only [Bind.bind, Except.bind, Except.ok.injEq] at hok
    subst hok
    intro m hm
    rcases List.mem_cons.mp hm with rfl | hm
    · exact trivial
    · exact bgSpecEmit_inRange data 0 0
        (fun s hs => ⟨(h s hs).2.1, (h s hs).2.2.1, (h s hs).2.2.2.2⟩)
        (le_refl 0) (by norm_num) m hm
  · intro data msgs h hok
    rw [create_medium_track,
      medLoop_eq defaultMediumConfig data (fun s hs _ => (h s hs).1) 0] at hok
    simp only [Bind.bind, Except.bind, Except.ok.injEq] at hok
    subst hok
    intro m hm
    rcases List.mem_cons.mp hm with rfl | hm
    · exact trivial
    · exact medEmit_inRange (keptMed defaultMediumConfig data) 0
        (fun s hs => (h s (List.mem_of_mem_filter hs)).2) m hm
  · intro data msgs h hok
    simp only [create_details_track] at hok
    rw [detLoop_eq_clusters defaultDetailsConfig data
      (fun s hs => (h s hs).1) _ [] (by simp)] at hok
    refine foldlM_clusters_inRange _ _ msgs ?_ ?_ hok
    · intro m hm
      rw [List.mem_singleton.mp hm]
      exact trivial
    · intro c hc s hs
      have := clLoop_subset defaultDetailsConfig.group_threshold data [] c hc s hs
      rw [List.nil_append] at this
      exact (h s this).2

/-- Witness for C10: one representative emitted message per track, shown
in range by applying the theorem at concrete inputs. -/
theorem c10_ranges_witness :
    msgInRange (Msg.control_change 1 63 0 0) ∧
    msgInRange (Msg.note_on 48 127 0 0) ∧
    msgInRange (Msg.note_on 90 127 0 0) := by
  refine ⟨?_, ?_, ?_⟩
  · refine c10_ranges.1 [⟨some 0, some (1/2), some 0⟩]
      [Msg.program_change 52 0 0, Msg.control_change 1 63 0 0,
       Msg.note_on 36 0 0 0, Msg.note_off 36 64 0 14400]
      (by
        intro s hs
        fin_cases hs
        refine ⟨rfl, by norm_num, by norm_num, by norm_num, by norm_num⟩)
      ?_ (Msg.control_change 1 63 0 0) (by decide)
    norm_num [create_background_track, bgLoop, defaultBackgroundConfig,
      bg_velocity, pyInt, ms_to_ticks, getTime, Bind.bind, Except.bind,
      Real.sqrt_zero]
    rw [abs_of_nonneg (by norm_num : (0 : ℚ) ≤ 1/2)]
    norm_num
  · refine c10_ranges.2.1 [⟨some 0, some 2, some 0⟩]
      [Msg.program_change 74 1 0, Msg.note_on 48 127 0 0,
       Msg.note_off 48 64 0 480]
      (by
        intro s hs
        fin_cases hs
        exact ⟨rfl, by norm_num⟩)
      ?_ (Msg.note_on 48 127 0 0) (by decide)
    norm_num [create_medium_track, medLoop, defaultMediumConfig,
      direction_to_note, pyMod, pyInt, ms_to_ticks, getTime,
      Bind.bind, Except.bind]
  · refine c10_ranges.2.2 [⟨some 0, some 90, some 5⟩]
      [Msg.program_change 127 2 0, Msg.note_on 90 127 0 0,
       Msg.note_off 90 64 0 48]
      (by
        intro s hs
        fin_cases hs
        exact ⟨rfl, by norm_num, by norm_num⟩)
      ?_ (Msg.note_on 90 127 0 0) (by decide)
    norm_num [create_details_track, detLoop, add_note_cluster, mainEventOf,
      secondaryNotes, hue_to_note, defaultDetailsConfig, pyInt, ms_to_ticks,
      getTime, Msg.time, Bind.bind, Except.bind]

theorem getKey_setKey_self :
    ∀ (l : Entries) (k : String) (v : CVal), getKey (setKey l k v) k = some v
  | .nil, k, v => by simp [setKey, getKey]
  | .cons k0 w rest, k, v => by
    by_cases hk : k0 = k
    · rw [setKey, if_pos hk, getKey, if_pos hk]
    · rw [setKey, if_neg hk, getKey, if_neg hk]
      exact getKey_setKey_self rest k v

theorem getKey_setKey_other :
    ∀ (l : Entries) (k : String) (v : CVal) (k2 : String), k ≠ k2 →
    getKey (setKey l k v) k2 = getKey l k2
  | .nil, k, v, k2, h => by simp [setKey, getKey, h]
  | .cons k0 w rest, k, v, k2, h => by
    by_cases hk : k0 = k
    · rw [setKey, if_pos hk, getKey, getKey]
      subst hk
      rw [if_neg h, if_neg h]
    · rw [setKey, if_neg hk, getKey, getKey]
      by_cases hk2 : k0 = k2
      · rw [if_pos hk2, if_pos hk2]
      · rw [if_neg hk2, if_neg hk2]
        exact getKey_setKey_other rest k v k2 h

theorem setKey_same :
    ∀ (l : Entries) (k : String) (v : CVal), getKey l k = some v →
    setKey l k v = l
  | .nil, k, v, h => by cases h
  | .cons k0 w rest, k, v, h => by
    by_cases hk : k0 = k
    · rw [getKey, if_pos hk] at h
      injection h with h
      rw [setKey, if_pos hk, h]
    · rw [getKey, if_neg hk] at h
      rw [setKey, if_neg hk, setKey_same rest k v h]

theorem getKey_none_of_hasKey_false :
    ∀ (l : Entries) (k : String), hasKey l k = false → getKey l k = none
  | .nil, k, _ => rfl
  | .cons k0 w rest, k, h => by
    rw [hasKey, Bool.or_eq_false_iff] at h
    obtain ⟨h1, h2⟩ := h
    rw [getKey, if_neg (by simpa using h1)]
    exact getKey_none_of_hasKey_false rest k h2

theorem hasKey_true_of_getKey :
    ∀ (l : Entries) (k : String) (v : CVal), getKey l k = some v →
    hasKey l k = true
  | .nil, k, v, h => by cases h
  | .cons k0 w rest, k, v, h => by
    rw [hasKey, Bool.or_eq_true]
    by_cases hk : k0 = k
    · left; simpa using hk
    · rw [getKey, if_neg hk] at h
      right
      exact hasKey_true_of_getKey rest k v h

theorem WFv_of_getKey :
    ∀ (es : Entries) (k : String) (v : CVal), WFe es = true →
    getKey es k = some v → WFv v = true
  | .nil, k, v, _, h => by cases h
  | .cons k0 w rest, k, v, hwf, h => by
    rw [WFe, Bool.and_eq_true, Bool.and_eq_true] at hwf
    obtain ⟨⟨_, hw⟩, hrest⟩ := hwf
    by_cases hk : k0 = k
    · rw [getKey, if_pos hk] at h
      injection h with h
      rw [← h]
      exact hw
    · rw [getKey, if_neg hk] at h
      exact WFv_of_getKey rest k v hrest h

theorem mergeEntries_nil (ds : Entries) : mergeEntries ds .nil = .ok ds := rfl

theorem mergeEntries_cons (ds : Entries) (k : String) (v : CVal) (us : Entries) :
    mergeEntries ds (.cons k v us) =
      match getKey ds k, v with
      | some dv, .node _ => do
        let m ← merge_configs dv v
        mergeEntries (setKey ds k m) us
      | _, _ => mergeEntries (setKey ds k v) us := rfl

theorem merge_configs_node (ds us : Entries) :
    merge_configs (.node ds) (.node us) =
      Except.map .node (mergeEntries ds us) := rfl

theorem merge_configs_leaf_left (n : ℤ) (u : CVal) :
    merge_configs (.leaf n) u = .error .attributeError := by
  cases u <;> rfl

theorem merge_configs_leaf_right (d : CVal) (n : ℤ) :
    merge_configs d (.leaf n) = .error .attributeError := by
  cases d <;> rfl

theorem mergeEntries_cons_node (ds : Entries) (k : String) (vs us : Entries)
    (dv : CVal) (hdv : getKey ds k = some dv) :
    mergeEntries ds (.cons k (.node vs) us) =
      (do
        let m ← merge_configs dv (.node vs)
        mergeEntries (setKey ds k m) us) := by
  rw [mergeEntries_cons, hdv]

theorem mergeEntries_cons_leaf (ds : Entries) (k : String) (n : ℤ)
    (us : Entries) :
    mergeEntries ds (.cons k (.leaf n) us) =
      mergeEntries (setKey ds k (.leaf n)) us := by
  rw [mergeEntries_cons]
  cases getKey ds k <;> rfl

theorem mergeEntries_cons_none (ds : Entries) (k : String) (v : CVal)
    (us : Entries) (hdv : getKey ds k = none) :
    mergeEntries ds (.cons k v us) = mergeEntries (setKey ds k v) us := by
  rw [mergeEntries_cons, hdv]

theorem mergeEntries_preserved :
    ∀ (us ds rs : Entries) (k : String), mergeEntries ds us = .ok rs →
    hasKey us k = false → getKey rs k = getKey ds k
  | .nil, ds, rs, k, hm, _ => by
    rw [mergeEntries_nil] at hm
    injection hm with hm
    rw [hm]
  | .cons k0 v us', ds, rs, k, hm, hk => by
    rw [hasKey, Bool.or_eq_false_iff] at hk
    obtain ⟨hk0, hk'⟩ := hk
    have hk0' : k0 ≠ k := by simpa using hk0
    cases v with
    | leaf n =>
      rw [mergeEntries_cons_leaf] at hm
      rw [mergeEntries_preserved us' _ rs k hm hk',
        getKey_setKey_other ds k0 _ k hk0']
    | node vs =>
      cases hdv : getKey ds k0 with
      | none =>
        rw [mergeEntries_cons_none ds k0 _ us' hdv] at hm
        rw [mergeEntries_preserved us' _ rs k hm hk',
          getKey_setKey_other ds k0 _ k hk0']
      | some dv =>
        rw [mergeEntries_cons_node ds k0 vs us' dv hdv] at hm
        cases hmc : merge_configs dv (.node vs) with
        | error err =>
          rw [hmc] at hm
          simp [Bind.bind, Except.bind] at hm
        | ok mk =>
          rw [hmc] at hm
          simp only [Bind.bind, Except.bind] at hm
          rw [mergeEntries_preserved us' _ rs k hm hk',
            getKey_setKey_other ds k0 mk k hk0']

theorem getKey_merged :
    ∀ (us ds rs : Entries) (k : String) (v : CVal), WFe us = true →
    mergeEntries ds us = .ok rs → getKey us k = some v →
    match v, getKey ds k with
    | .node _, some dv =>
      ∃ mk, merge_configs dv v = .ok mk ∧ getKey rs k = some mk
    | _, _ => getKey rs k = some v
  | .nil, _, _, k, v, _, _, hget => by cases hget
  | .cons k0 w us', ds, rs, k, v, hwf, hm, hget => by
    rw [WFe, Bool.and_eq_true, Bool.and_eq_true] at hwf
    obtain ⟨⟨hnk, hww⟩, hwfr⟩ := hwf
    have hnk' : hasKey us' k0 = false := by simpa using hnk
    by_cases hk : k0 = k
    · subst hk
      rw [getKey, if_pos rfl] at hget
      injection hget with hget
      rw [← hget]
      cases w with
      | leaf n =>
        rw [mergeEntries_cons_leaf] at hm
        have hpres := mergeEntries_preserved us' _ rs k0 hm hnk'
        rw [getKey_setKey_self ds k0 _] at hpres
        cases getKey ds k0 <;> exact hpres
      | node vs =>
        cases hdv : getKey ds k0 with
        | none =>
          rw [mergeEntries_cons_none ds k0 _ us' hdv] at hm
          have hpres := mergeEntries_preserved us' _ rs k0 hm hnk'
          rw [getKey_setKey_self ds k0 _] at hpres
          exact hpres
        | some dv =>
          rw [mergeEntries_cons_node ds k0 vs us' dv hdv] at hm
          cases hmc : merge_configs dv (.node vs) with
          | error err =>
            rw [hmc] at hm
            simp [Bind.bind, Except.bind] at hm
          | ok mk =>
            rw [hmc] at hm
            simp only [Bind.bind, Except.bind] at hm
            have hpres := mergeEntries_preserved us' _ rs k0 hm hnk'
            rw [getKey_setKey_self ds k0 mk] at hpres
            exact ⟨mk, hmc, hpres⟩
    · rw [getKey, if_neg hk] at hget
      cases w with
      | leaf n =>
        rw [mergeEntries_cons_leaf] at hm
        have hrec := getKey_merged us' _ rs k v hwfr hm hget
        rw [getKey_setKey_other ds k0 _ k hk] at hrec
        exact hrec
      | node vs =>
        cases hdv : getKey ds k0 with
        | none =>
          rw [mergeEntries_cons_none ds k0 _ us' hdv] at hm
          have hrec := getKey_merged us' _ rs k v hwfr hm hget
          rw [getKey_setKey_other ds k0 _ k hk] at hrec
          exact hrec
        | some dv =>
          rw [mergeEntries_cons_node ds k0 vs us' dv hdv] at hm
          cases hmc : merge_configs dv (.node vs) with
          | error err =>
            rw [hmc] at hm
            simp [Bind.bind, Except.bind] at hm
          | ok mk =>
            rw [hmc] at hm
            simp only [Bind.bind, Except.bind] at hm
            have hrec := getKey_merged us' _ rs k v hwfr hm hget
            rw [getKey_setKey_other ds k0 mk k hk] at hrec
            exact hrec

theorem lookupPath_nil (v : CVal) : lookupPath v [] = some v := by
  cases v <;> rfl

theorem lookupPath_leaf (n : ℤ) (key : String) (p : List String) :
    lookupPath (.leaf n) (key :: p) = none := rfl

theorem lookupPath_cons_some (es : Entries) (key : String) (p : List String)
    (w : CVal) (h : getKey es key = some w) :
    lookupPath (.node es) (key :: p) = lookupPath w p := by
  rw [show lookupPath (.node es) (key :: p) =
    (match getKey es key with
     | some w => lookupPath w p
     | none => none) from rfl, h]

theorem lookupPath_cons_none (es : Entries) (key : String) (p : List String)
    (h : getKey es key = none) :
    lookupPath (.node es) (key :: p) = none := by
  rw [show lookupPath (.node es) (key :: p) =
    (match getKey es key with
     | some w => lookupPath w p
     | none => none) from rfl, h]

theorem omitsKey_nil (v : CVal) : omitsKey v [] = false := by
  cases v <;> rfl

theorem omitsKey_leaf (n : ℤ) (key : String) (p : List String) :
    omitsKey (.leaf n) (key :: p) = false := rfl

theorem omitsKey_cons_some (es : Entries) (key : String) (p : List String)
    (w : CVal) (h : getKey es key = some w) :
    omitsKey (.node es) (key :: p) = omitsKey w p := by
  rw [show omitsKey (.node es) (key :: p) =
    (match getKey es key with
     | none => true
     | some w => omitsKey w p) from rfl, h]

theorem omitsKey_cons_none (es : Entries) (key : String) (p : List String)
    (h : getKey es key = none) :
    omitsKey (.node es) (key :: p) = true := by
  rw [show omitsKey (.node es) (key :: p) =
    (match getKey es key with
     | none => true
     | some w => omitsKey w p) from rfl, h]

theorem WFv_node (es : Entries) : WFv (.node es) = WFe es := rfl

/-- Every leaf the user supplies survives a successful merge. -/
theorem userLeafLookup :
    ∀ (p : List String) (d u m : CVal), WFv u = true →
    merge_configs d u = .ok m → ∀ v : ℤ,
    lookupPath u p = some (.leaf v) → lookupPath m p = some (.leaf v) := by
  intro p
  induction p with
  | nil =>
    intro d u m hwf hok v hlu
    rw [lookupPath_nil] at hlu
    injection hlu with hlu
    subst hlu
    rw [merge_configs_leaf_right] at hok
    cases hok
  | cons key p' ih =>
    intro d u m hwf hok v hlu
    cases u with
    | leaf n =>
      rw [lookupPath_leaf] at hlu
      cases hlu
    | node us =>
      cases hw : getKey us key with
      | none =>
        rw [lookupPath_cons_none us key p' hw] at hlu
        cases hlu
      | some w =>
        rw [lookupPath_cons_some us key p' w hw] at hlu
        cases d with
        | leaf n =>
          rw [merge_configs_leaf_left] at hok
          cases hok
        | node ds =>
          rw [merge_configs_node] at hok
          cases hme : mergeEntries ds us with
          | error err =>
            rw [hme] at hok
            cases hok
          | ok rs =>
            rw [hme] at hok
            simp only [Except.map] at hok
            injection hok with hok
            subst hok
            have hwfe : WFe us = true := by rw [← WFv_node]; exact hwf
            have hgm := getKey_merged us ds rs key w hwfe hme hw
            cases w with
            | leaf n2 =>
              cases p' with
              | nil =>
                rw [lookupPath_nil] at hlu
                injection hlu with hlu
                have hrs : getKey rs key = some (.leaf n2) := by
                  rcases hdk : getKey ds key with _ | dv <;> rw [hdk] at hgm <;>
                    exact hgm
                rw [lookupPath_cons_some rs key [] _ hrs, lookupPath_nil, hlu]
              | cons q qs =>
                rw [lookupPath_leaf] at hlu
                cases hlu
            | node ws =>
              rcases hdk : getKey ds key with _ | dv
              · rw [hdk] at hgm
                have hrs : getKey rs key = some (.node ws) := hgm
                rw [lookupPath_cons_some rs key p' _ hrs]
                exact hlu
              · rw [hdk] at hgm
                obtain ⟨mk, hmk, hrs⟩ := hgm
                rw [lookupPath_cons_some rs key p' mk hrs]
                exact ih dv (.node ws) mk (WFv_of_getKey us key _ hwfe hw) hmk v hlu

theorem hasKey_false_of_getKey_none :
    ∀ (l : Entries) (k : String), getKey l k = none → hasKey l k = false
  | .nil, _, _ => rfl
  | .cons k0 w rest, k, h => by
    by_cases hk : k0 = k
    · rw [getKey, if_pos hk] at h
      cases h
    · rw [getKey, if_neg hk] at h
      rw [hasKey, Bool.or_eq_false_iff]
      exact ⟨by simpa using hk, hasKey_false_of_getKey_none rest k h⟩

/-- Every default value at a path the user omits survives a successful
merge. -/
theorem defaultLookup :
    ∀ (p : List String) (d u m : CVal), WFv u = true →
    merge_configs d u = .ok m → ∀ x : CVal,
    lookupPath d p = some x → omitsKey u p = true → lookupPath m p = some x := by
  intro p
  induction p with
  | nil =>
    intro d u m _ _ x _ hom
    rw [omitsKey_nil] at hom
    cases hom
  | cons key p' ih =>
    intro d u m hwf hok x hld hom
    cases u with
    | leaf n =>
      rw [omitsKey_leaf] at hom
      cases hom
    | node us =>
      cases d with
      | leaf n =>
        rw [merge_configs_leaf_left] at hok
        cases hok
      | node ds =>
        rw [merge_configs_node] at hok
        cases hme : mergeEntries ds us with
        | error err =>
          rw [hme] at hok
          cases hok
        | ok rs =>
          rw [hme] at hok
          simp only [Except.map] at hok
          injection hok with hok
          subst hok
          have hwfe : WFe us = true := by rw [← WFv_node]; exact hwf
          cases hdw : getKey ds key with
          | none =>
            rw [lookupPath_cons_none ds key p' hdw] at hld
            cases hld
          | some dw =>
            rw [lookupPath_cons_some ds key p' dw hdw] at hld
            cases hw : getKey us key with
            | none =>
              have hfk : hasKey us key = false :=
                hasKey_false_of_getKey_none us key hw
              have hpres := mergeEntries_preserved us ds rs key hme hfk
              rw [hdw] at hpres
              rw [lookupPath_cons_some rs key p' dw hpres]
              exact hld
            | some w =>
              rw [omitsKey_cons_some us key p' w hw] at hom
              cases w with
              | leaf n2 =>
                have hfalse : omitsKey (.leaf n2) p' = false := by
                  cases p' with
                  | nil => exact omitsKey_nil _
                  | cons a b => exact omitsKey_leaf n2 a b
                rw [hfalse] at hom
                cases hom
              | node ws =>
                have hgm := getKey_merged us ds rs key (.node ws) hwfe hme hw
                rw [hdw] at hgm
                obtain ⟨mk, hmk, hrs⟩ := hgm
                rw [lookupPath_cons_some rs key p' mk hrs]
                exact ih dw (.node ws) mk (WFv_of_getKey us key _ hwfe hw) hmk
                  x hld hom

/-- Merging a dict whose entries are already present verbatim in the
accumulated result leaves the result unchanged. -/
theorem selfEntries :
    ∀ (us es : Entries), WFe us = true →
    (∀ (k : String) (v : CVal), getKey us k = some v → getKey es k = some v) →
    mergeEntries es us = .ok es
  | .nil, es, _, _ => mergeEntries_nil es
  | .cons k0 w us', es, hwf, hsub => by
    rw [WFe, Bool.and_eq_true, Bool.and_eq_true] at hwf
    obtain ⟨⟨hnk, hww⟩, hwfr⟩ := hwf
    have hkey : getKey es k0 = some w := hsub k0 w (by rw [getKey, if_pos rfl])
    have hsub' : ∀ (k : String) (v : CVal), getKey us' k = some v →
        getKey es k = some v := by
      intro k v h
      have hne : k0 ≠ k := by
        intro he
        subst he
        rw [getKey_none_of_hasKey_false us' k0 (by simpa using hnk)] at h
        cases h
      exact hsub k v (by rw [getKey, if_neg hne]; exact h)
    cases w with
    | leaf n =>
      rw [mergeEntries_cons_leaf, setKey_same es k0 _ hkey]
      exact selfEntries us' es hwfr hsub'
    | node ws =>
      rw [mergeEntries_cons_node es k0 ws us' (.node ws) hkey,
        merge_configs_node,
        selfEntries ws ws (by rw [← WFv_node]; exact hww) (fun _ _ h => h)]
      simp only [Except.map, Bind.bind, Except.bind]
      rw [setKey_same es k0 _ hkey]
      exact selfEntries us' es hwfr hsub'

/-- Merging a well-formed dict with itself is the identity. -/
theorem selfMerge (es : Entries) (hwf : WFe es = true) :
    merge_configs (.node es) (.node es) = .ok (.node es) := by
  rw [merge_configs_node, selfEntries es es hwf (fun _ _ h => h)]
  rfl

/-- Re-running the item loop of the merge over an already-merged result
changes nothing. -/
theorem entriesIdem :
    ∀ (us ds rs : Entries), WFe us = true → mergeEntries ds us = .ok rs →
    mergeEntries rs us = .ok rs
  | .nil, _, rs, _, _ => mergeEntries_nil rs
  | .cons k0 v us', ds, rs, hwf, hm => by
    rw [WFe, Bool.and_eq_true, Bool.and_eq_true] at hwf
    obtain ⟨⟨hnk, hwv⟩, hwfr⟩ := hwf
    have hnk' : hasKey us' k0 = false := by simpa using hnk
    cases v with
    | leaf n =>
      rw [mergeEntries_cons_leaf] at hm
      have hpres := mergeEntries_preserved us' _ rs k0 hm hnk'
      rw [getKey_setKey_self] at hpres
      rw [mergeEntries_cons_leaf, setKey_same rs k0 _ hpres]
      exact entriesIdem us' _ rs hwfr hm
    | node vs =>
      cases hdv : getKey ds k0 with
      | none =>
        rw [mergeEntries_cons_none ds k0 _ us' hdv] at hm
        have hpres := mergeEntries_preserved us' _ rs k0 hm hnk'
        rw [getKey_setKey_self] at hpres
        rw [mergeEntries_cons_node rs k0 vs us' (.node vs) hpres,
          selfMerge vs (by rw [← WFv_node]; exact hwv)]
        simp only [Bind.bind, Except.bind]
        rw [setKey_same rs k0 _ hpres]
        exact entriesIdem us' _ rs hwfr hm
      | some dv =>
        rw [mergeEntries_cons_node ds k0 vs us' dv hdv] at hm
        cases hmc : merge_configs dv (.node vs) with
        | error err =>
          rw [hmc] at hm
          simp [Bind.bind, Except.bind] at hm
        | ok mk =>
          rw [hmc] at hm
          simp only [Bind.bind, Except.bind] at hm
          have hpres := mergeEntries_preserved us' _ rs k0 hm hnk'
          rw [getKey_setKey_self] at hpres
          have hmk2 : merge_configs mk (.node vs) = .ok mk := by
            cases dv with
            | leaf n2 =>
              rw [merge_configs_leaf_left] at hmc
              cases hmc
            | node ds2 =>
              rw [merge_configs_node] at hmc
              cases hme2 : mergeEntries ds2 vs with
              | error err =>
                rw [hme2] at hmc
                cases hmc
              | ok rs2 =>
                rw [hme2] at hmc
                simp only [Except.map] at hmc
                injection hmc with hmc
                subst hmc
                rw [merge_configs_node,
                  entriesIdem vs ds2 rs2 (by rw [← WFv_node]; exact hwv) hme2]
                rfl
          rw [mergeEntries_cons_node rs k0 vs us' mk hpres, hmk2]
          simp only [Bind.bind, Except.bind]
          rw [setKey_same rs k0 _ hpres]
          exact entriesIdem us' _ rs hwfr hm

/-- Merging the same well-formed user map a second time over an
already-merged result yields the identical result. -/
theorem mergeIdem (d u m : CVal) (hwf : WFv u = true)
    (hok : merge_configs d u = .ok m) : merge_configs m u = .ok m := by
  cases u with
  | leaf n =>
    rw [merge_configs_leaf_right] at hok
    cases hok
  | node us =>
    cases d with
    | leaf n =>
      rw [merge_configs_leaf_left] at hok
      cases hok
    | node ds =>
      rw [merge_configs_node] at hok
      cases hme : mergeEntries ds us with
      | error err =>
        rw [hme] at hok
        cases hok
      | ok rs =>
        rw [hme] at hok
        simp only [Except.map] at hok
        injection hok with hok
        subst hok
        rw [merge_configs_node,
          entriesIdem us ds rs (by rw [← WFv_node]; exact hwf) hme]
        rfl

/-- C8 counterexample: for the pair of nested maps d = {a: 5, b: 7} and
u = {a: {}}, the deep merge recurses into _merge_configs(5, {}) whose
initial default.copy() raises AttributeError (5 is not a dict), so the
merge produces no result at all even though the user omits key b and the
default holds the leaf 7 there — contradicting the claim for every pair
of nested string-keyed maps. -/
theorem c8_counterexample :
    merge_configs
      (.node (.cons ⟨['a']⟩ (.leaf 5) (.cons ⟨['b']⟩ (.leaf 7) .nil)))
      (.node (.cons ⟨['a']⟩ (.node .nil) .nil)) = .error .attributeError ∧
    lookupPath (.node (.cons ⟨['a']⟩ (.leaf 5) (.cons ⟨['b']⟩ (.leaf 7) .nil)))
      [⟨['b']⟩] = some (.leaf 7) ∧
    omitsKey (.node (.cons ⟨['a']⟩ (.node .nil) .nil)) [⟨['b']⟩] = true := by
  refine ⟨?_, ?_, ?_⟩ <;> rfl

/-- C8 (amended): for every pair of nested string-keyed configuration
maps on which the deep merge succeeds (it raises AttributeError when the
user supplies a sub-map at a key whose default value is a non-dict leaf),
the merge gives the user's value at every leaf the user supplies, the
default value at every path the user omits, and merging the same
(duplicate-key-free) user map a second time over the merged result yields
the identical result. -/
theorem c8_amended (d u m : CVal) (hwf : WFv u = true)
    (hok : merge_configs d u = .ok m) :
    (∀ (p : List String) (v : ℤ), lookupPath u p = some (.leaf v) →
      lookupPath m p = some (.leaf v)) ∧
    (∀ (p : List String) (x : CVal), lookupPath d p = some x →
      omitsKey u p = true → lookupPath m p = some x) ∧
    merge_configs m u = .ok m :=
  ⟨fun p v => userLeafLookup p d u m hwf hok v,
   fun p x => defaultLookup p d u m hwf hok x,
   mergeIdem d u m hwf hok⟩

/-- Witness for the amended C8: d = {a: {p: 52, q: 15000}} merged with
u = {a: {p: 81}} keeps the user's 81, keeps the omitted default 15000,
and is idempotent. -/
theorem c8_amended_witness :
    lookupPath
      (.node (.cons ⟨['a']⟩
        (.node (.cons ⟨['p']⟩ (.leaf 81) (.cons ⟨['q']⟩ (.leaf 15000) .nil)))
        .nil)) [⟨['a']⟩, ⟨['p']⟩] = some (.leaf 81) ∧
    lookupPath
      (.node (.cons ⟨['a']⟩
        (.node (.cons ⟨['p']⟩ (.leaf 81) (.cons ⟨['q']⟩ (.leaf 15000) .nil)))
        .nil)) [⟨['a']⟩, ⟨['q']⟩] = some (.leaf 15000) ∧
    merge_configs
      (.node (.cons ⟨['a']⟩
        (.node (.cons ⟨['p']⟩ (.leaf 81) (.cons ⟨['q']⟩ (.leaf 15000) .nil)))
        .nil))
      (.node (.cons ⟨['a']⟩ (.node (.cons ⟨['p']⟩ (.leaf 81) .nil)) .nil)) =
      .ok (.node (.cons ⟨['a']⟩
        (.node (.cons ⟨['p']⟩ (.leaf 81) (.cons ⟨['q']⟩ (.leaf 15000) .nil)))
        .nil)) :=
  ⟨(c8_amended
      (.node (.cons ⟨['a']⟩
        (.node (.cons ⟨['p']⟩ (.leaf 52) (.cons ⟨['q']⟩ (.leaf 15000) .nil)))
        .nil))
      (.node (.cons ⟨['a']⟩ (.node (.cons ⟨['p']⟩ (.leaf 81) .nil)) .nil))
      (.node (.cons ⟨['a']⟩
        (.node (.cons ⟨['p']⟩ (.leaf 81) (.cons ⟨['q']⟩ (.leaf 15000) .nil)))
        .nil)) rfl rfl).1 [⟨['a']⟩, ⟨['p']⟩] 81 rfl,
   (c8_amended
      (.node (.cons ⟨['a']⟩
        (.node (.cons ⟨['p']⟩ (.leaf 52) (.cons ⟨['q']⟩ (.leaf 15000) .nil)))
        .nil))
      (.node (.cons ⟨['a']⟩ (.node (.cons ⟨['p']⟩ (.leaf 81) .nil)) .nil))
      (.node (.cons ⟨['a']⟩
        (.node (.cons ⟨['p']⟩ (.leaf 81) (.cons ⟨['q']⟩ (.leaf 15000) .nil)))
        .nil)) rfl rfl).2.1 [⟨['a']⟩, ⟨['q']⟩] (.leaf 15000) rfl rfl,
   (c8_amended
      (.node (.cons ⟨['a']⟩
        (.node (.cons ⟨['p']⟩ (.leaf 52) (.cons ⟨['q']⟩ (.leaf 15000) .nil)))
        .nil))
      (.node (.cons ⟨['a']⟩ (.node (.cons ⟨['p']⟩ (.leaf 81) .nil)) .nil))
      (.node (.cons ⟨['a']⟩
        (.node (.cons ⟨['p']⟩ (.leaf 81) (.cons ⟨['q']⟩ (.leaf 15000) .nil)))
        .nil)) rfl rfl).2.2⟩
